import Mathlib

/-!
Verification of the scaffolding pipeline in `src/cli/typescript-starter.ts`.

The development embeds, as executable Lean definitions, the manifest
derivation (`filterAllBut`, the `scripts` object, `newPkg`, the
`JSON.stringify` serialization of `writePackageJson`), the exact-match
first-occurrence substring replacement used through `replaceInFile`, and the
sequential filesystem pipeline of `typescriptStarter` (package rewrite,
`.gitignore` edits, scaffold deletion, README promotion and placeholder
substitution, the two feature-pruning blocks, install and initial commit),
and proves the spec's testable properties about them.
-/

set_option maxHeartbeats 1000000
set_option linter.unusedVariables false

/-! ### JSON-like objects

A parsed JSON object is a finite key-value table with (after `JSON.parse`)
pairwise distinct keys and no `undefined` values; an in-memory JS object
built by the pipeline may in addition hold `undefined` values, modelled as
`Option`. Property access reads the entry of the key; object-literal update
(`... spread, [k]: v`) overwrites the entry in place or appends a new one.
-/

/-- JS property access `o[k]`: the value of the first entry with key `k`,
`none` when the key is absent. -/
def jsLookup {α : Type} (o : List (String × α)) (k : String) : Option α :=
  (o.find? (fun p => p.1 == k)).map Prod.snd

/-- Whether the object has an entry for key `k`. -/
def hasKey {α : Type} (o : List (String × α)) (k : String) : Bool :=
  o.any (fun p => p.1 == k)

/-- JS object-literal update: assigning `k` in a spread copy updates the
existing entry in place (keeping its position) or appends a new entry. -/
def jsSet {α : Type} : List (String × α) → String → α → List (String × α)
  | [], k, v => [(k, v)]
  | p :: rest, k, v => if p.1 == k then (k, v) :: rest else p :: jsSet rest k v

/-- Model of `filterAllBut` (typescript-starter.ts lines 81-90): reduce over
the allow-list, writing `from[moduleName]` into the accumulator for every
allow-listed name. For a name absent from `from_` the value written is
JS `undefined`, modelled as `none` - the key is present in the in-memory
result object. -/
def filterAllBut (keep : List String) (from_ : List (String × String)) :
    List (String × Option String) :=
  keep.foldl (fun acc moduleName => jsSet acc moduleName (jsLookup from_ moduleName)) []

/-- The effect of `JSON.stringify` (used by `writePackageJson`, lines 15-20)
on an object's entry list: entries holding `undefined` are dropped from the
serialized output. -/
def stringifyObj (o : List (String × Option String)) : List (String × String) :=
  o.filterMap (fun p => p.2.map (fun v => (p.1, v)))

/-- The allow-list of development dependencies kept by the transform
(typescript-starter.ts lines 54-74). -/
def keptDevDeps : List String :=
  [ "@ava/typescript"
  , "@istanbuljs/nyc-config-typescript"
  , "@typescript-eslint/eslint-plugin"
  , "@typescript-eslint/parser"
  , "ava"
  , "eslint"
  , "eslint-config-prettier"
  , "eslint-plugin-eslint-comments"
  , "eslint-plugin-import"
  , "gh-pages"
  , "npm-run-all"
  , "nyc"
  , "open-cli"
  , "prettier"
  , "standard-version"
  , "trash-cli"
  , "ts-node"
  , "typedoc"
  , "typescript"
  ]

/-- The allow-list of runtime dependencies to retain for Node.js
applications (typescript-starter.ts line 79): empty. -/
def nodeKeptDeps : List String := []

/-- Modelled from the spec: the package-manager choice enumeration
(`Runner` lives in `./utils`, which is not under `src/`); the spec calls it
a two-valued enum with npm the default and Yarn the alternate choice. -/
inductive Runner
  | npm
  | yarn
deriving DecidableEq, Repr

/-- The `ava` sub-object of the manifest as the transform touches it
(typescript-starter.ts lines 112-116): pass-through entries plus the
`files` and `ignoredByWatcher` fields the transform overwrites. -/
structure AvaCfg where
  other : List (String × String)
  files : Option (List String)
  ignoredByWatcher : Option (List String)
deriving DecidableEq, Repr

/-- A parsed source package manifest: the fields `newPkg` reads or
overwrites, plus `others` for every further top-level key, which the object
spread copies through untouched. `Option` fields model possibly-absent
keys (`none` = key absent from the JSON text). -/
structure Pkg where
  dependencies : List (String × String)
  devDependencies : List (String × String)
  scripts : List (String × String)
  description : String
  keywords : List String
  name : String
  repository : String
  version : String
  ava : AvaCfg
  bin : Option String
  NOTE : Option String
  NOTE_2 : Option String
  others : List (String × String)
deriving DecidableEq, Repr

/-- The fields of `TypescriptStarterOptions` that `typescriptStarter`
destructures (typescript-starter.ts lines 22-36); `repoInfo` and
`workingDirectory` only feed the out-of-scope clone collaborator. -/
structure Opts where
  description : String
  domDefinitions : Bool
  email : String
  fullName : String
  githubUsername : String
  install : Bool
  nodeDefinitions : Bool
  projectName : String
  runner : Runner
  vscode : Bool
deriving DecidableEq, Repr

/-- The derived `scripts` object (typescript-starter.ts lines 93-99): the
inherited scripts, then a `version` script keyed by the project name, then -
only for Yarn - a `reset-hard` script. -/
def scriptsOf (o : Opts) (pkg : Pkg) : List (String × String) :=
  let s1 := jsSet pkg.scripts "version" ("standard-version -t " ++ o.projectName ++ "\\@")
  if o.runner = Runner.yarn then
    jsSet s1 "reset-hard" "git clean -dfx && git reset --hard && yarn"
  else s1

/-- The derived manifest, in memory: dependency tables may hold `undefined`
values (`filterAllBut` writes them); `bin`, `NOTE`, `NOTE_2` as `none`
model the deleted keys, which `JSON.stringify` then omits. -/
structure NewPkg where
  dependencies : List (String × Option String)
  devDependencies : List (String × Option String)
  scripts : List (String × String)
  description : String
  keywords : List String
  name : String
  repository : String
  version : String
  ava : AvaCfg
  bin : Option String
  NOTE : Option String
  NOTE_2 : Option String
  others : List (String × String)
deriving DecidableEq, Repr

/-- The object-literal spread building `newPkg` (typescript-starter.ts
lines 100-117), before the three `delete` statements. -/
def newPkgSpread (o : Opts) (pkg : Pkg) : NewPkg :=
  { dependencies :=
      if o.nodeDefinitions then filterAllBut nodeKeptDeps pkg.dependencies else []
  , devDependencies := filterAllBut keptDevDeps pkg.devDependencies
  , scripts := scriptsOf o pkg
  , description := o.description
  , keywords := []
  , name := o.projectName
  , repository := "https://github.com/" ++ o.githubUsername ++ "/" ++ o.projectName
  , version := "1.0.0"
  , ava :=
      { other := pkg.ava.other
      , files := some ["!build/module/**"]
      , ignoredByWatcher := none }
  , bin := pkg.bin
  , NOTE := pkg.NOTE
  , NOTE_2 := pkg.NOTE_2
  , others := pkg.others }

/-- The derived manifest after `delete newPkg.bin`, `delete newPkg.NOTE`,
`delete newPkg.NOTE_2` (typescript-starter.ts lines 119-124). -/
def newPkg (o : Opts) (pkg : Pkg) : NewPkg :=
  let np := newPkgSpread o pkg
  { np with bin := none, NOTE := none, NOTE_2 := none }

/-! ### Lemmas about JS objects -/

theorem jsLookup_nil {α : Type} (k : String) : jsLookup ([] : List (String × α)) k = none := rfl

theorem jsLookup_cons {α : Type} (p : String × α) (o : List (String × α)) (k : String) :
    jsLookup (p :: o) k = if p.1 == k then some p.2 else jsLookup o k := by
  by_cases h : p.1 == k <;> simp [jsLookup, List.find?, h]

theorem jsLookup_jsSet_self {α : Type} (o : List (String × α)) (k : String) (v : α) :
    jsLookup (jsSet o k v) k = some v := by
  induction o with
  | nil => simp [jsSet, jsLookup, List.find?]
  | cons p rest ih =>
    by_cases h : p.1 == k
    · simp [jsSet, h, jsLookup_cons]
    · simp [jsSet, h, jsLookup_cons, ih]

theorem jsLookup_jsSet_ne {α : Type} (o : List (String × α)) (k k' : String) (v : α)
    (h : k' ≠ k) : jsLookup (jsSet o k v) k' = jsLookup o k' := by
  induction o with
  | nil =>
    have : (k == k') = false := by simpa [beq_iff_eq] using fun e => h e.symm
    simp [jsSet, jsLookup_cons, this, jsLookup_nil]
  | cons p rest ih =>
    by_cases hp : p.1 == k
    · have hpk : p.1 = k := by simpa [beq_iff_eq] using hp
      have h1 : (k == k') = false := by simpa [beq_iff_eq] using fun e => h e.symm
      have h2 : (p.1 == k') = false := by
        simpa [beq_iff_eq, hpk] using fun e => h e.symm
      simp [jsSet, hp, jsLookup_cons, h1, h2]
    · by_cases hq : p.1 == k'
      · simp [jsSet, hp, jsLookup_cons, hq]
      · simp [jsSet, hp, jsLookup_cons, hq, ih]

theorem hasKey_append {α : Type} (o o' : List (String × α)) (k : String) :
    hasKey (o ++ o') k = (hasKey o k || hasKey o' k) := by
  simp [hasKey]

theorem jsSet_fresh {α : Type} (o : List (String × α)) (k : String) (v : α)
    (h : hasKey o k = false) : jsSet o k v = o ++ [(k, v)] := by
  induction o with
  | nil => rfl
  | cons p rest ih =>
    simp only [hasKey, List.any_cons, Bool.or_eq_false_iff] at h
    simp [jsSet, h.1, ih (by simpa [hasKey] using h.2)]

/-- The reduce in `filterAllBut` over pairwise distinct allow-list names
builds exactly the list of allow-listed (name, looked-up value) pairs. -/
theorem foldl_jsSet_eq_append {α : Type} (keep : List String) (f : String → α) :
    ∀ init : List (String × α), keep.Nodup →
      (∀ k ∈ keep, hasKey init k = false) →
      keep.foldl (fun acc m => jsSet acc m (f m)) init = init ++ keep.map (fun m => (m, f m)) := by
  induction keep with
  | nil => intro init _ _; simp
  | cons a l ih =>
    intro init hnd hfresh
    have ha : hasKey init a = false := hfresh a (by simp)
    have hstep : jsSet init a (f a) = init ++ [(a, f a)] := jsSet_fresh _ _ _ ha
    have hnd' : l.Nodup := (List.nodup_cons.mp hnd).2
    have hal : a ∉ l := (List.nodup_cons.mp hnd).1
    have hfresh' : ∀ k ∈ l, hasKey (init ++ [(a, f a)]) k = false := by
      intro k hk
      have h1 : hasKey init k = false := hfresh k (by simp [hk])
      have h2 : (a == k) = false := by
        simpa [beq_iff_eq] using fun e : a = k => hal (by rw [e]; exact hk)
      rw [hasKey_append, h1]
      simp [hasKey, h2]
    simp only [List.foldl_cons, hstep, ih _ hnd' hfresh', List.map_cons, List.append_assoc,
      List.singleton_append]

theorem filterAllBut_eq_map (keep : List String) (d : List (String × String))
    (hnd : keep.Nodup) :
    filterAllBut keep d = keep.map (fun m => (m, jsLookup d m)) := by
  simpa using foldl_jsSet_eq_append keep (fun m => jsLookup d m) [] hnd (by intro k _; rfl)

theorem keptDevDeps_nodup : keptDevDeps.Nodup := by decide

theorem jsLookup_map_self {α : Type} (keep : List String) (f : String → α) (k : String)
    (hm : k ∈ keep) : jsLookup (keep.map (fun m => (m, f m))) k = some (f k) := by
  induction keep with
  | nil => cases hm
  | cons a l ih =>
    by_cases h : a = k
    · subst h; simp [jsLookup_cons]
    · have : (a == k) = false := by simpa [beq_iff_eq] using h
      have hm' : k ∈ l := by
        rcases List.mem_cons.mp hm with h' | h'
        · exact absurd h'.symm h
        · exact h'
      simp [jsLookup_cons, this, ih hm']

theorem jsLookup_stringify_map_of_not_mem (l : List String) (g : String → Option String)
    (k : String) (hk : k ∉ l) :
    jsLookup (stringifyObj (l.map (fun m => (m, g m)))) k = none := by
  induction l with
  | nil => rfl
  | cons a t ih =>
    have hak : a ≠ k := fun e => hk (by simp [e])
    have hkt : k ∉ t := fun h => hk (by simp [h])
    cases hga : g a with
    | none => simpa [stringifyObj, hga] using ih hkt
    | some v =>
      have : (a == k) = false := by simpa [beq_iff_eq] using hak
      simpa [stringifyObj, hga, jsLookup_cons, this] using ih hkt

theorem jsLookup_stringify_map (keep : List String) (g : String → Option String)
    (k : String) (hnd : keep.Nodup) (hm : k ∈ keep) :
    jsLookup (stringifyObj (keep.map (fun m => (m, g m)))) k = g k := by
  induction keep with
  | nil => cases hm
  | cons a l ih =>
    have hnd' : l.Nodup := (List.nodup_cons.mp hnd).2
    have hal : a ∉ l := (List.nodup_cons.mp hnd).1
    by_cases h : a = k
    · subst h
      cases hga : g a with
      | none =>
        simpa [stringifyObj, hga] using jsLookup_stringify_map_of_not_mem l g a hal
      | some v => simp [stringifyObj, hga, jsLookup_cons]
    · have hm' : k ∈ l := by
        rcases List.mem_cons.mp hm with h' | h'
        · exact absurd h'.symm h
        · exact h'
      cases hga : g a with
      | none => simpa [stringifyObj, hga] using ih hnd' hm'
      | some v =>
        have : (a == k) = false := by simpa [beq_iff_eq] using h
        simpa [stringifyObj, hga, jsLookup_cons, this] using ih hnd' hm'

theorem mem_keys_of_jsLookup_ne_none {α : Type} (o : List (String × α)) (k : String) :
    jsLookup o k ≠ none → ∃ p ∈ o, p.1 = k := by
  intro h
  rcases ho : o.find? (fun p => p.1 == k) with _ | p
  · exact absurd (by simp [jsLookup, ho]) h
  · refine ⟨p, List.mem_of_find?_eq_some ho, ?_⟩
    have := List.find?_some ho
    simpa [beq_iff_eq] using this

/-! ### Manifest-transform claims -/

/-- C1: for every source manifest and every allow-listed
development-dependency name, a name present in the source `devDependencies`
keeps exactly its name-value pair in the serialized derived
`devDependencies`; a name absent upstream is written as `undefined`
(`none`) into the in-memory object by `filterAllBut`, and the serialized
object (after `JSON.stringify` drops `undefined` entries) omits the key
entirely. -/
theorem claim1_devDependencies (devDeps : List (String × String)) (name : String)
    (hmem : name ∈ keptDevDeps) :
    (∀ v, jsLookup devDeps name = some v →
        jsLookup (stringifyObj (filterAllBut keptDevDeps devDeps)) name = some v) ∧
    (jsLookup devDeps name = none →
        jsLookup (filterAllBut keptDevDeps devDeps) name = some none ∧
        ∀ p ∈ stringifyObj (filterAllBut keptDevDeps devDeps), p.1 ≠ name) := by
  have hmap := filterAllBut_eq_map keptDevDeps devDeps keptDevDeps_nodup
  constructor
  · intro v hv
    rw [hmap, jsLookup_stringify_map _ _ _ keptDevDeps_nodup hmem, hv]
  · intro hnone
    refine ⟨by rw [hmap, jsLookup_map_self _ _ _ hmem, hnone], ?_⟩
    intro p hp he
    rw [hmap] at hp
    rcases List.mem_filterMap.mp hp with ⟨q, hq, hqp⟩
    rcases List.mem_map.mp hq with ⟨m, _, rfl⟩
    rcases hv : jsLookup devDeps m with _ | v
    · rw [hv] at hqp; simp at hqp
    · rw [hv] at hqp
      simp only [Option.map_some', Option.some.injEq] at hqp
      rw [← hqp] at he
      simp only at he
      rw [he] at hv
      exact absurd hv (by rw [hnone]; simp)

theorem claim1_devDependencies_witness :
    ("ava" ∈ keptDevDeps) ∧
      jsLookup (stringifyObj (filterAllBut keptDevDeps [("ava", "1.0.0")])) "ava"
        = some "1.0.0" :=
  ⟨by decide,
    (claim1_devDependencies [("ava", "1.0.0")] "ava" (by decide)).1 "1.0.0" (by decide)⟩

/-- C6: the derived manifest overwrites description, name, repository,
version and keywords unconditionally, and the scaffold-only keys `bin`,
`NOTE` and `NOTE_2` are absent from the result (deleted in memory, hence
omitted by serialization). -/
theorem claim6_identity_fields (o : Opts) (p : Pkg) :
    (newPkg o p).description = o.description ∧
    (newPkg o p).name = o.projectName ∧
    (newPkg o p).repository
      = "https://github.com/" ++ o.githubUsername ++ "/" ++ o.projectName ∧
    (newPkg o p).version = "1.0.0" ∧
    (newPkg o p).keywords = [] ∧
    (newPkg o p).bin = none ∧
    (newPkg o p).NOTE = none ∧
    (newPkg o p).NOTE_2 = none :=
  ⟨rfl, rfl, rfl, rfl, rfl, rfl, rfl, rfl⟩

/-- C9: the derived `dependencies` table is empty no matter the
`nodeDefinitions` flag: the false branch writes the empty object, the true
branch filters through the empty allow-list `nodeKeptDeps`, so the flag has
no observable effect on the serialized `dependencies` field. -/
theorem claim9_dependencies_empty (o : Opts) (p : Pkg) :
    (newPkg o p).dependencies = [] ∧
    stringifyObj (newPkg o p).dependencies = [] ∧
    (newPkg { o with nodeDefinitions := true } p).dependencies
      = (newPkg { o with nodeDefinitions := false } p).dependencies := by
  have h : ∀ o' : Opts, (newPkg o' p).dependencies = [] := by
    intro o'
    cases hn : o'.nodeDefinitions <;>
      simp [newPkg, newPkgSpread, hn, nodeKeptDeps, filterAllBut]
  exact ⟨h o, by rw [h o]; rfl, by rw [h _, h _]⟩

/-- A manifest with every field empty, for concrete instantiations. -/
def pkgBase : Pkg :=
  { dependencies := []
  , devDependencies := []
  , scripts := []
  , description := ""
  , keywords := []
  , name := ""
  , repository := ""
  , version := ""
  , ava := { other := [], files := none, ignoredByWatcher := none }
  , bin := none
  , NOTE := none
  , NOTE_2 := none
  , others := [] }

/-- A configuration with npm as runner and both features kept, for concrete
instantiations. -/
def optsBase : Opts :=
  { description := ""
  , domDefinitions := true
  , email := ""
  , fullName := ""
  , githubUsername := ""
  , install := false
  , nodeDefinitions := true
  , projectName := ""
  , runner := Runner.npm
  , vscode := true }

/-- C7 counterexample: the derived script table does not contain
`reset-hard` *iff* the runner is Yarn: a source manifest whose inherited
scripts already define `reset-hard` keeps it under npm as well, because the
object spread preserves all inherited scripts. -/
theorem claim7_counterexample :
    ¬ ∀ (pkg : Pkg) (o : Opts),
        (hasKey (scriptsOf o pkg) "reset-hard" = true ↔ o.runner = Runner.yarn) := by
  intro h
  have h2 := (h { pkgBase with scripts := [("reset-hard", "echo ok")] } optsBase).mp
    (by decide)
  exact absurd h2 (by decide)

/-- C7 amended: the derived script table preserves every inherited script
other than `version` (and, under Yarn, `reset-hard`); it maps `version` to
the standard-version command parameterized by the project name; under Yarn
it maps `reset-hard` to the Yarn reset command; under npm the `reset-hard`
entry is exactly the inherited one (so it is present iff the runner is Yarn
whenever the source manifest does not itself define `reset-hard`). -/
theorem claim7_amended (pkg : Pkg) (o : Opts) (k : String)
    (hk1 : k ≠ "version") (hk2 : k ≠ "reset-hard") :
    jsLookup (scriptsOf o pkg) k = jsLookup pkg.scripts k ∧
    jsLookup (scriptsOf o pkg) "version"
      = some ("standard-version -t " ++ o.projectName ++ "\\@") ∧
    (o.runner = Runner.yarn →
      jsLookup (scriptsOf o pkg) "reset-hard"
        = some "git clean -dfx && git reset --hard && yarn") ∧
    (o.runner = Runner.npm →
      jsLookup (scriptsOf o pkg) "reset-hard" = jsLookup pkg.scripts "reset-hard") := by
  cases hr : o.runner
  · refine ⟨?_, ?_, ?_, ?_⟩
    · simp [scriptsOf, hr, jsLookup_jsSet_ne _ _ _ _ hk1]
    · simp [scriptsOf, hr, jsLookup_jsSet_self]
    · exact fun h => absurd h (by decide)
    · intro _
      simp [scriptsOf, hr,
        jsLookup_jsSet_ne _ _ _ _ (show "reset-hard" ≠ "version" by decide)]
  · refine ⟨?_, ?_, ?_, ?_⟩
    · simp [scriptsOf, hr, jsLookup_jsSet_ne _ _ _ _ hk2,
        jsLookup_jsSet_ne _ _ _ _ hk1]
    · simp [scriptsOf, hr,
        jsLookup_jsSet_ne _ _ _ _ (show "version" ≠ "reset-hard" by decide),
        jsLookup_jsSet_self]
    · intro _; simp [scriptsOf, hr, jsLookup_jsSet_self]
    · exact fun h => absurd h (by decide)

theorem claim7_amended_witness :
    jsLookup (scriptsOf optsBase { pkgBase with scripts := [("build", "tsc")] }) "build"
      = jsLookup ({ pkgBase with scripts := [("build", "tsc")] } : Pkg).scripts "build" :=
  (claim7_amended _ optsBase "build" (by decide) (by decide)).1

/-! ### Exact-match first-occurrence substring replacement

The `replaceInFile` collaborator is specified (spec 4.2) as exact-match,
first-occurrence, non-regex substring replacement that is a silent no-op
when the pattern is missing. The model works on character lists.
-/

/-- Boolean prefix test on character lists. -/
def isPre : List Char → List Char → Bool
  | [], _ => true
  | _ :: _, [] => false
  | a :: as, b :: bs => a == b && isPre as bs

/-- Modelled from the spec: the replacement of the leftmost occurrence of
`pat` by `rep` (what `replaceInFile` with a plain-string pattern performs);
a missing pattern leaves the text unchanged. -/
def repFirst (pat rep : List Char) : List Char → List Char
  | [] => if pat.isEmpty then rep else []
  | c :: rest =>
      if isPre pat (c :: rest) then rep ++ (c :: rest).drop pat.length
      else c :: repFirst pat rep rest

/-- String-level wrapper of `repFirst`. -/
def replaceFirst (s pat rep : String) : String :=
  String.mk (repFirst pat.data rep.data s.data)

/-- Whether `pat` occurs in `s` starting at position `i`. -/
def occursAtB (pat s : List Char) (i : Nat) : Bool := isPre pat (s.drop i)

/-- `pat` occurs nowhere in `s`. -/
def NoOcc (pat s : List Char) : Prop := ∀ i, occursAtB pat s i = false

theorem isPre_append_self (l t : List Char) : isPre l (l ++ t) = true := by
  induction l with
  | nil => rfl
  | cons a as ih => simp [isPre, ih]

theorem isPre_append_left (p q s : List Char) (h : isPre (p ++ q) s = true) :
    isPre p s = true := by
  induction p generalizing s with
  | nil => rfl
  | cons a as ih =>
    cases s with
    | nil => simp [isPre] at h
    | cons b bs =>
      simp only [List.cons_append, isPre, Bool.and_eq_true] at h ⊢
      exact ⟨h.1, ih bs h.2⟩

theorem occursAtB_succ_cons (pat : List Char) (c : Char) (rest : List Char) (i : Nat) :
    occursAtB pat (c :: rest) (i + 1) = occursAtB pat rest i := by
  simp [occursAtB]

theorem occursAtB_of_ge (pat s : List Char) (i : Nat) (hp : pat ≠ [])
    (h : s.length ≤ i) : occursAtB pat s i = false := by
  cases pat with
  | nil => exact absurd rfl hp
  | cons a as =>
    have : s.drop i = [] := List.drop_eq_nil_of_le h
    simp [occursAtB, this, isPre]

theorem noOcc_of_bounded (pat s : List Char) (hp : pat ≠ [])
    (h : ∀ i < s.length, occursAtB pat s i = false) : NoOcc pat s := by
  intro i
  by_cases hi : i < s.length
  · exact h i hi
  · exact occursAtB_of_ge pat s i hp (Nat.le_of_not_lt hi)

/-- A superstring of an absent pattern is absent too. -/
theorem noOcc_mono (p q s : List Char) (h : NoOcc p s) : NoOcc (p ++ q) s := by
  intro i
  cases ho : occursAtB (p ++ q) s i
  · rfl
  · exact absurd (isPre_append_left p q _ ho) (by simpa [occursAtB] using h i)

theorem repFirst_no_occ (pat rep s : List Char) (h : NoOcc pat s) :
    repFirst pat rep s = s := by
  induction s with
  | nil =>
    have h0 := h 0
    cases pat with
    | nil => simp [occursAtB, isPre] at h0
    | cons a as => simp [repFirst, List.isEmpty]
  | cons c rest ih =>
    have h0 : isPre pat (c :: rest) = false := by simpa [occursAtB] using h 0
    have hrest : NoOcc pat rest := by
      intro i
      have := h (i + 1)
      simpa [occursAtB_succ_cons] using this
    simp [repFirst, h0, ih hrest]

theorem repFirst_decomp (pat rep pre post : List Char) (hp : pat ≠ [])
    (h : ∀ i < pre.length, occursAtB pat (pre ++ pat ++ post) i = false) :
    repFirst pat rep (pre ++ pat ++ post) = pre ++ rep ++ post := by
  induction pre with
  | nil =>
    cases pat with
    | nil => exact absurd rfl hp
    | cons a as =>
      have hpre : isPre (a :: as) ((a :: as) ++ post) = true := isPre_append_self _ _
      simp only [List.nil_append] at *
      rw [show ((a :: as) ++ post) = a :: (as ++ post) from rfl] at *
      simp only [repFirst, hpre, if_true]
      have : (a :: (as ++ post)).drop (a :: as).length = post := by
        simp
      rw [this]
  | cons c pre' ih =>
    have h0 : isPre pat (c :: (pre' ++ pat ++ post)) = false := by
      simpa [occursAtB] using h 0 (by simp)
    have h' : ∀ i < pre'.length, occursAtB pat (pre' ++ pat ++ post) i = false := by
      intro i hi
      have := h (i + 1) (by simpa using Nat.succ_lt_succ hi)
      simpa [occursAtB_succ_cons] using this
    have ih' : repFirst pat rep (pre' ++ (pat ++ post)) = pre' ++ (rep ++ post) := by
      simpa [List.append_assoc] using ih h'
    have h0' : isPre pat (c :: (pre' ++ (pat ++ post))) = false := by
      simpa [List.append_assoc] using h0
    simp [repFirst, h0', ih']

/-- A clean replacement situation: either the pattern is absent (and the
replacement is a no-op), or there is exactly one occurrence, rewriting it
gives `c'`, and the pattern does not reappear in `c'`. Template-provisioned
files satisfy this for every pattern the pipeline replaces. -/
def ReplSpec (c pat rep c' : List Char) : Prop :=
  (NoOcc pat c ∧ c' = c) ∨
  (∃ pre post, c = pre ++ pat ++ post ∧
    (∀ i, occursAtB pat c i = true → i = pre.length) ∧
    c' = pre ++ rep ++ post ∧ NoOcc pat c')

theorem ReplSpec.eval {c pat rep c' : List Char} (hp : pat ≠ [])
    (h : ReplSpec c pat rep c') : repFirst pat rep c = c' := by
  rcases h with ⟨hno, rfl⟩ | ⟨pre, post, rfl, honly, rfl, _⟩
  · exact repFirst_no_occ pat rep _ hno
  · refine repFirst_decomp pat rep pre post hp ?_
    intro i hi
    cases ho : occursAtB pat (pre ++ pat ++ post) i
    · rfl
    · exact absurd (honly i ho) (Nat.ne_of_lt hi)

theorem ReplSpec.noOccAfter {c pat rep c' : List Char}
    (h : ReplSpec c pat rep c') : NoOcc pat c' := by
  rcases h with ⟨hno, rfl⟩ | ⟨_, _, _, _, _, hno⟩ <;> exact hno

theorem ReplSpec.of_noOcc {c pat rep : List Char} (h : NoOcc pat c) :
    ReplSpec c pat rep c := Or.inl ⟨h, rfl⟩

/-! ### The concrete replacement patterns of the pipeline -/

def asyncSans : String := "export * from './lib/async';"

def asyncLn : String := "export * from './lib/async';\n"

def hashSans : String := "export * from './lib/hash';"

def hashLn : String := "export * from './lib/hash';\n"

def libDom : String := "\"lib\": [\"es2017\", \"dom\"]"

def libNoDom : String := "\"lib\": [\"es2017\"]"

def typesNode : String := "\"types\": [\"node\"]"

def typesEmpty : String := "\"types\": []"

/-! ### Filesystem model and the pipeline

The pipeline (typescript-starter.ts lines 50-239, after the out-of-scope
clone collaborator returns) is a strictly sequential chain of filesystem
mutations. Text files are a path-content table; `package.json` is held
separately: `pkgIn` is the parse oracle of the provisioned manifest
(`none` = unreadable or unparseable, so `JSON.parse` throws) and `pkgOut`
the manifest written by `writePackageJson`, if any. Each executed step
appends its event to a trace, and an error aborts the rest of the chain,
keeping the state reached so far.
-/

/-- The on-disk project state as the pipeline sees it. -/
structure FS where
  files : List (String × String)
  pkgIn : Option Pkg
  pkgOut : Option NewPkg
deriving DecidableEq, Repr

def fsRead (fs : FS) (p : String) : Option String := jsLookup fs.files p

def fsWrite (fs : FS) (p c : String) : FS :=
  { fs with files := jsSet fs.files p c }

/-- Modelled from the spec: `del` tolerates a missing target (deleting an
absent file is a no-op). -/
def fsDel (fs : FS) (p : String) : FS :=
  { fs with files := fs.files.filter (fun q => !(q.1 == p)) }

/-- Modelled from the spec: `replaceInFile` reads the file, rewrites the
first occurrence of the pattern (a no-op when absent) and writes the result
back; a missing file is an error. -/
def replaceInFileFS (fs : FS) (p pat rep : String) : Except Unit FS :=
  match fsRead fs p with
  | none => .error ()
  | some c => .ok (fsWrite fs p (replaceFirst c pat rep))

/-- Modelled from the spec: `renameSync` fails when the source is missing;
otherwise it removes the source entry and writes the target. -/
def renameFS (fs : FS) (src dst : String) : Except Unit FS :=
  match fsRead fs src with
  | none => .error ()
  | some c => .ok (fsWrite (fsDel fs src) dst c)

def gitignorePath : String := ".gitignore"

def readmePath : String := "README.md"

def readmeStarterPath : String := "README-starter.md"

def tsconfigPath : String := "tsconfig.json"

def indexPath : String := "src/index.ts"

def hashTsPath : String := "src/lib/hash.ts"

def hashSpecPath : String := "src/lib/hash.spec.ts"

def asyncTsPath : String := "src/lib/async.ts"

def asyncSpecPath : String := "src/lib/async.spec.ts"

def changelogPath : String := "CHANGELOG.md"

def lockPath : String := "package-lock.json"

def binPath : String := "bin"

def cliPath : String := "src/cli"

def vscodePath : String := ".vscode"

/-- The observable steps of the pipeline, in source order. -/
inductive Event
  | writePkg
  | gitignoreDiff
  | gitignoreYarn
  | delScaffold
  | delVscode
  | readmeRename
  | readmeName
  | readmeDesc
  | domTsconfig
  | domIndexHash
  | domDelete
  | nodeTsconfig
  | nodeIndexAsync
  | nodeIndexHash
  | nodeDelete
  | installPkg
  | commitRepo
deriving DecidableEq, Repr

structure St where
  fs : FS
  trace : List Event
deriving DecidableEq, Repr

/-- A pipeline outcome: a thrown error keeps the state reached so far
(completed filesystem mutations persist, nothing is rolled back). -/
inductive Outcome
  | ok : St → Outcome
  | err : St → Outcome
deriving DecidableEq, Repr

def Outcome.andThen : Outcome → (St → Outcome) → Outcome
  | ok s, f => f s
  | err s, _ => err s

def traceOf : Outcome → List Event
  | .ok s => s.trace
  | .err s => s.trace

/-- Runs one stage: on success the stage's events are appended to the
trace, on failure the state stays as it was. -/
def liftStage (f : FS → Except Unit FS) (evs : List Event) (s : St) : Outcome :=
  match f s.fs with
  | .ok fs' => .ok { fs := fs', trace := s.trace ++ evs }
  | .error _ => .err s

/-- Reading and rewriting `package.json` (lines 92-127): `JSON.parse`
throws on an unreadable or unparseable manifest, else the derived manifest
is written back. -/
def pkgFS (o : Opts) (fs : FS) : Except Unit FS :=
  match fs.pkgIn with
  | none => .error ()
  | some p => .ok { fs with pkgOut := some (newPkg o p) }

/-- The `.gitignore` edits (lines 129-142). -/
def gitignoreFS (o : Opts) (fs : FS) : Except Unit FS := do
  let fs1 ← replaceInFileFS fs gitignorePath "diff\n" ""
  if o.runner = Runner.yarn then
    replaceInFileFS fs1 gitignorePath "yarn.lock" "package-lock.json"
  else
    pure fs1

/-- Deleting the scaffold files (lines 144-157), with the fire-and-forget
`.vscode` deletion. -/
def deleteFS (o : Opts) (fs : FS) : FS :=
  let fs1 :=
    fsDel (fsDel (fsDel (fsDel (fsDel fs changelogPath) readmePath) lockPath) binPath)
      cliPath
  if o.vscode then fs1 else fsDel fs1 vscodePath

/-- Promoting the starter README and substituting the two placeholders
(lines 163-178). -/
def readmeFS (o : Opts) (fs : FS) : Except Unit FS := do
  let fs1 ← renameFS fs readmeStarterPath readmePath
  let fs2 ← replaceInFileFS fs1 readmePath "[package-name]" o.projectName
  replaceInFileFS fs2 readmePath "[description]" o.description

/-- The `!domDefinitions` pruning block (lines 180-197). -/
def pruneDomFS (fs : FS) : Except Unit FS := do
  let fs1 ← replaceInFileFS fs tsconfigPath libDom libNoDom
  let fs2 ← replaceInFileFS fs1 indexPath hashLn ""
  pure (fsDel (fsDel fs2 hashTsPath) hashSpecPath)

/-- The `!nodeDefinitions` pruning block (lines 199-223). -/
def pruneNodeFS (fs : FS) : Except Unit FS := do
  let fs1 ← replaceInFileFS fs tsconfigPath typesNode typesEmpty
  let fs2 ← replaceInFileFS fs1 indexPath asyncLn ""
  let fs3 ← replaceInFileFS fs2 indexPath hashLn ""
  pure
    (fsDel (fsDel (fsDel (fsDel fs3 hashTsPath) hashSpecPath) asyncTsPath) asyncSpecPath)

/-- Modelled from the spec: the results of the external install and commit
collaborators for the run (`true` = that collaborator succeeds; failures
propagate as fatal). -/
structure Collab where
  installOk : Bool
  commitOk : Bool
deriving DecidableEq, Repr

/-- Modelled from the spec: the placeholder sentinel name from
`Placeholders` in `./tasks` (not under `src/`). Only the comparison
against it matters, not the concrete text. -/
def placeholderName : String := "YOUR_NAME"

/-- Modelled from the spec: the placeholder sentinel email from
`Placeholders` in `./tasks` (not under `src/`). -/
def placeholderEmail : String := "YOUR_EMAIL"

/-- The commit gate (lines 229-232): true iff both the name and the email
differ from their placeholder sentinels. -/
def gitIsConfigured (fullName email : String) : Bool :=
  if fullName ≠ placeholderName ∧ email ≠ placeholderEmail then true else false

def stagePkg (o : Opts) : St → Outcome := liftStage (pkgFS o) [Event.writePkg]

def stageGitignore (o : Opts) : St → Outcome :=
  liftStage (gitignoreFS o)
    (if o.runner = Runner.yarn then [Event.gitignoreDiff, Event.gitignoreYarn]
     else [Event.gitignoreDiff])

def stageDelete (o : Opts) : St → Outcome :=
  liftStage (fun fs => .ok (deleteFS o fs))
    (if o.vscode then [Event.delScaffold] else [Event.delScaffold, Event.delVscode])

def stageReadme (o : Opts) : St → Outcome :=
  liftStage (readmeFS o) [Event.readmeRename, Event.readmeName, Event.readmeDesc]

def stageDom (o : Opts) (s : St) : Outcome :=
  if o.domDefinitions then .ok s
  else liftStage pruneDomFS [Event.domTsconfig, Event.domIndexHash, Event.domDelete] s

def stageNode (o : Opts) (s : St) : Outcome :=
  if o.nodeDefinitions then .ok s
  else
    liftStage pruneNodeFS
      [Event.nodeTsconfig, Event.nodeIndexAsync, Event.nodeIndexHash, Event.nodeDelete] s

/-- The optional install invocation (lines 225-227): the event records the
attempt; a failing collaborator aborts the run. -/
def stageInstall (o : Opts) (ext : Collab) (s : St) : Outcome :=
  if o.install then
    (if ext.installOk then .ok { s with trace := s.trace ++ [Event.installPkg] }
     else .err { s with trace := s.trace ++ [Event.installPkg] })
  else .ok s

/-- The gated initial commit (lines 229-237): the event records the
attempt. -/
def stageCommit (o : Opts) (ext : Collab) (s : St) : Outcome :=
  if gitIsConfigured o.fullName o.email then
    (if ext.commitOk then .ok { s with trace := s.trace ++ [Event.commitRepo] }
     else .err { s with trace := s.trace ++ [Event.commitRepo] })
  else .ok s

/-- The whole pipeline after the clone collaborator returns
(typescript-starter.ts lines 50-239), in source order. -/
def run (o : Opts) (ext : Collab) (fs : FS) : Outcome :=
  ((((((((Outcome.ok { fs := fs, trace := [] }).andThen (stagePkg o)).andThen
    (stageGitignore o)).andThen (stageDelete o)).andThen (stageReadme o)).andThen
    (stageDom o)).andThen (stageNode o)).andThen (stageInstall o ext)).andThen
    (stageCommit o ext)

/-! ### Filesystem lemmas -/

theorem find?_filter_ne (l : List (String × String)) (p q : String) (h : q ≠ p) :
    (l.filter (fun r => !(r.1 == p))).find? (fun r => r.1 == q)
      = l.find? (fun r => r.1 == q) := by
  induction l with
  | nil => rfl
  | cons r t ih =>
    by_cases hq : (r.1 == q) = true
    · have hrq : r.1 = q := by simpa [beq_iff_eq] using hq
      have hp : (r.1 == p) = false := by simpa [beq_iff_eq, hrq] using h
      simp [List.filter_cons, hp, List.find?, hq]
    · by_cases hp : (r.1 == p) = true
      · simp [List.filter_cons, hp, List.find?, hq, ih]
      · simp only [Bool.not_eq_true] at hp
        simp [List.filter_cons, hp, List.find?, hq, ih]

theorem find?_filter_self (l : List (String × String)) (p : String) :
    (l.filter (fun r => !(r.1 == p))).find? (fun r => r.1 == p) = none := by
  induction l with
  | nil => rfl
  | cons r t ih =>
    by_cases hp : (r.1 == p) = true
    · simp [List.filter_cons, hp, ih]
    · simp only [Bool.not_eq_true] at hp
      simp [List.filter_cons, hp, List.find?, ih]

theorem fsRead_fsWrite_self (fs : FS) (p c : String) :
    fsRead (fsWrite fs p c) p = some c := by
  simp [fsRead, fsWrite, jsLookup_jsSet_self]

theorem fsRead_fsWrite_ne (fs : FS) (p c q : String) (h : q ≠ p) :
    fsRead (fsWrite fs p c) q = fsRead fs q := by
  simp [fsRead, fsWrite, jsLookup_jsSet_ne _ _ _ _ h]

theorem fsRead_fsDel_ne (fs : FS) (p q : String) (h : q ≠ p) :
    fsRead (fsDel fs p) q = fsRead fs q := by
  simp [fsRead, fsDel, jsLookup, find?_filter_ne _ _ _ h]

theorem fsRead_fsDel_self (fs : FS) (p : String) : fsRead (fsDel fs p) p = none := by
  simp [fsRead, fsDel, jsLookup, find?_filter_self]

theorem fsWrite_pkg (fs : FS) (p c : String) :
    (fsWrite fs p c).pkgIn = fs.pkgIn ∧ (fsWrite fs p c).pkgOut = fs.pkgOut := ⟨rfl, rfl⟩

theorem fsDel_pkg (fs : FS) (p : String) :
    (fsDel fs p).pkgIn = fs.pkgIn ∧ (fsDel fs p).pkgOut = fs.pkgOut := ⟨rfl, rfl⟩

/-! ### Stage inversion lemmas -/

theorem andThen_ok (x : Outcome) (f : St → Outcome) (s' : St)
    (h : x.andThen f = .ok s') : ∃ m, x = .ok m ∧ f m = .ok s' := by
  cases x with
  | ok m => exact ⟨m, rfl, h⟩
  | err m => exact Outcome.noConfusion h

theorem liftStage_ok (f : FS → Except Unit FS) (evs : List Event) (s s' : St)
    (h : liftStage f evs s = .ok s') :
    f s.fs = .ok s'.fs ∧ s'.trace = s.trace ++ evs := by
  unfold liftStage at h
  cases hf : f s.fs with
  | ok fs2 =>
    rw [hf] at h
    cases h
    exact ⟨rfl, rfl⟩
  | error e =>
    rw [hf] at h
    exact Outcome.noConfusion h

theorem stagePkg_ok (o : Opts) (s s' : St) (h : stagePkg o s = .ok s') :
    pkgFS o s.fs = .ok s'.fs ∧ s'.trace = s.trace ++ [Event.writePkg] :=
  liftStage_ok _ _ _ _ h

theorem stageGitignore_ok (o : Opts) (s s' : St) (h : stageGitignore o s = .ok s') :
    gitignoreFS o s.fs = .ok s'.fs ∧
    s'.trace = s.trace ++
      (if o.runner = Runner.yarn then [Event.gitignoreDiff, Event.gitignoreYarn]
       else [Event.gitignoreDiff]) :=
  liftStage_ok _ _ _ _ h

theorem stageDelete_ok (o : Opts) (s s' : St) (h : stageDelete o s = .ok s') :
    s'.fs = deleteFS o s.fs ∧
    s'.trace = s.trace ++
      (if o.vscode then [Event.delScaffold] else [Event.delScaffold, Event.delVscode]) := by
  obtain ⟨h1, h2⟩ := liftStage_ok _ _ _ _ h
  exact ⟨(Except.ok.inj h1).symm, h2⟩

theorem stageReadme_ok (o : Opts) (s s' : St) (h : stageReadme o s = .ok s') :
    readmeFS o s.fs = .ok s'.fs ∧
    s'.trace = s.trace ++ [Event.readmeRename, Event.readmeName, Event.readmeDesc] :=
  liftStage_ok _ _ _ _ h

theorem stageDom_ok (o : Opts) (s s' : St) (h : stageDom o s = .ok s') :
    s'.trace = s.trace ++
      (if o.domDefinitions then []
       else [Event.domTsconfig, Event.domIndexHash, Event.domDelete]) ∧
    (if o.domDefinitions then s'.fs = s.fs else pruneDomFS s.fs = .ok s'.fs) := by
  cases hd : o.domDefinitions with
  | true =>
    rw [stageDom, hd] at h
    simp only [if_true] at h
    cases h
    simp
  | false =>
    rw [stageDom, hd] at h
    simp only [Bool.false_eq_true, if_false] at h
    obtain ⟨h1, h2⟩ := liftStage_ok _ _ _ _ h
    simp [h1, h2]

theorem stageNode_ok (o : Opts) (s s' : St) (h : stageNode o s = .ok s') :
    s'.trace = s.trace ++
      (if o.nodeDefinitions then []
       else [Event.nodeTsconfig, Event.nodeIndexAsync, Event.nodeIndexHash,
         Event.nodeDelete]) ∧
    (if o.nodeDefinitions then s'.fs = s.fs else pruneNodeFS s.fs = .ok s'.fs) := by
  cases hd : o.nodeDefinitions with
  | true =>
    rw [stageNode, hd] at h
    simp only [if_true] at h
    cases h
    simp
  | false =>
    rw [stageNode, hd] at h
    simp only [Bool.false_eq_true, if_false] at h
    obtain ⟨h1, h2⟩ := liftStage_ok _ _ _ _ h
    simp [h1, h2]

theorem stageInstall_ok (o : Opts) (ext : Collab) (s s' : St)
    (h : stageInstall o ext s = .ok s') :
    s'.fs = s.fs ∧
    s'.trace = s.trace ++ (if o.install then [Event.installPkg] else []) := by
  cases hi : o.install with
  | false =>
    rw [stageInstall, hi] at h
    simp only [Bool.false_eq_true, if_false] at h
    cases h
    simp
  | true =>
    rw [stageInstall, hi] at h
    simp only [if_true] at h
    cases hk : ext.installOk with
    | true =>
      rw [hk] at h
      simp only [if_true] at h
      cases h
      simp
    | false =>
      rw [hk] at h
      simp only [Bool.false_eq_true, if_false] at h
      exact Outcome.noConfusion h

theorem stageCommit_ok (o : Opts) (ext : Collab) (s s' : St)
    (h : stageCommit o ext s = .ok s') :
    s'.fs = s.fs ∧
    s'.trace = s.trace ++
      (if gitIsConfigured o.fullName o.email then [Event.commitRepo] else []) := by
  cases hg : gitIsConfigured o.fullName o.email with
  | false =>
    rw [stageCommit, hg] at h
    simp only [Bool.false_eq_true, if_false] at h
    cases h
    simp
  | true =>
    rw [stageCommit, hg] at h
    simp only [if_true] at h
    cases hk : ext.commitOk with
    | true =>
      rw [hk] at h
      simp only [if_true] at h
      cases h
      simp
    | false =>
      rw [hk] at h
      simp only [Bool.false_eq_true, if_false] at h
      exact Outcome.noConfusion h

/-! ### Claim C8: an unparseable manifest aborts the whole pipeline -/

/-- C8: if the source `package.json` does not parse, `JSON.parse` throws
out of `typescriptStarter` at the very first step: the run errors with the
filesystem exactly as provisioned (no manifest - partial or otherwise - is
ever written) and an empty trace. -/
theorem claim8_unparseable_aborts (o : Opts) (ext : Collab) (fs : FS)
    (h : fs.pkgIn = none) :
    run o ext fs = Outcome.err { fs := fs, trace := [] } ∧
    Event.writePkg ∉ traceOf (run o ext fs) := by
  have hrun : run o ext fs = Outcome.err { fs := fs, trace := [] } := by
    simp [run, Outcome.andThen, stagePkg, liftStage, pkgFS, h]
  exact ⟨hrun, by rw [hrun]; simp [traceOf]⟩

/-- A filesystem whose manifest does not parse. -/
def fsUnparseable : FS := { files := [], pkgIn := none, pkgOut := none }

theorem claim8_witness :
    run optsBase { installOk := true, commitOk := true } fsUnparseable
        = Outcome.err { fs := fsUnparseable, trace := [] } ∧
    Event.writePkg ∉
      traceOf (run optsBase { installOk := true, commitOk := true } fsUnparseable) :=
  claim8_unparseable_aborts optsBase _ fsUnparseable rfl

/-! ### Claim C5: the all-or-nothing commit gate -/

theorem not_mem_ite_list {e : Event} {c : Prop} [Decidable c] {l1 l2 : List Event}
    (h1 : e ∉ l1) (h2 : e ∉ l2) : e ∉ (if c then l1 else l2) := by
  split <;> assumption

theorem gitIsConfigured_iff (fullName email : String) :
    gitIsConfigured fullName email = true ↔
      (fullName ≠ placeholderName ∧ email ≠ placeholderEmail) := by
  by_cases hc : fullName ≠ placeholderName ∧ email ≠ placeholderEmail <;>
    simp [gitIsConfigured, hc]

/-- C5: in a completed run, an initial commit is attempted if and only if
both the full name and the email differ from their placeholder sentinels;
customizing only one of the two suppresses the commit. -/
theorem claim5_commit_gate (o : Opts) (ext : Collab) (fs : FS) (s : St)
    (h : run o ext fs = Outcome.ok s) :
    (Event.commitRepo ∈ s.trace ↔
      (o.fullName ≠ placeholderName ∧ o.email ≠ placeholderEmail)) ∧
    (gitIsConfigured o.fullName o.email = true ↔
      (o.fullName ≠ placeholderName ∧ o.email ≠ placeholderEmail)) := by
  obtain ⟨s8, h8, hc⟩ := andThen_ok _ _ _ h
  obtain ⟨s7, h7, hi⟩ := andThen_ok _ _ _ h8
  obtain ⟨s6, h6, hn⟩ := andThen_ok _ _ _ h7
  obtain ⟨s5, h5, hd⟩ := andThen_ok _ _ _ h6
  obtain ⟨s4, h4, hr⟩ := andThen_ok _ _ _ h5
  obtain ⟨s3, h3, hdel⟩ := andThen_ok _ _ _ h4
  obtain ⟨s2, h2, hg⟩ := andThen_ok _ _ _ h3
  obtain ⟨s1, h1, hp⟩ := andThen_ok _ _ _ h2
  have hs1 : s1 = { fs := fs, trace := [] } := (Outcome.ok.inj h1).symm
  have ht2 := (stagePkg_ok _ _ _ hp).2
  have ht3 := (stageGitignore_ok _ _ _ hg).2
  have ht4 := (stageDelete_ok _ _ _ hdel).2
  have ht5 := (stageReadme_ok _ _ _ hr).2
  have ht6 := (stageDom_ok _ _ _ hd).1
  have ht7 := (stageNode_ok _ _ _ hn).1
  have ht8 := (stageInstall_ok _ _ _ _ hi).2
  have hts := (stageCommit_ok _ _ _ _ hc).2
  have h8mem : Event.commitRepo ∉ s8.trace := by
    rw [ht8, ht7, ht6, ht5, ht4, ht3, ht2, hs1]
    simp only [List.mem_append, List.nil_append]
    intro hmem
    rcases hmem with ((((((hx | hx) | hx) | hx) | hx) | hx) | hx)
    · exact absurd hx (by decide)
    · exact absurd hx (not_mem_ite_list (by decide) (by decide))
    · exact absurd hx (not_mem_ite_list (by decide) (by decide))
    · exact absurd hx (by decide)
    · exact absurd hx (not_mem_ite_list (by decide) (by decide))
    · exact absurd hx (not_mem_ite_list (by decide) (by decide))
    · exact absurd hx (not_mem_ite_list (by decide) (by decide))
  refine ⟨?_, gitIsConfigured_iff _ _⟩
  rw [hts]
  rw [← gitIsConfigured_iff o.fullName o.email]
  simp only [List.mem_append, h8mem, false_or]
  by_cases hgc : gitIsConfigured o.fullName o.email = true
  · simp [hgc]
  · simp only [Bool.not_eq_true] at hgc
    simp [hgc]

def stOf : Outcome → St
  | .ok s => s
  | .err s => s

/-- A minimal well-formed starting filesystem for concrete runs with both
features kept. -/
def fsMinimal : FS :=
  { files :=
      [ (gitignorePath, "diff\nbuild\n")
      , (readmeStarterPath, "# [package-name]\n[description]\n") ]
  , pkgIn := some pkgBase
  , pkgOut := none }

/-- A configuration with a customized identity. -/
def optsCustom : Opts :=
  { optsBase with
      fullName := "Jane Doe"
    , email := "jane@example.com"
    , description := "A demo"
    , projectName := "demo" }

theorem claim5_witness :
    Event.commitRepo ∈ (stOf (run optsCustom { installOk := true, commitOk := true }
        fsMinimal)).trace ↔
      (optsCustom.fullName ≠ placeholderName ∧ optsCustom.email ≠ placeholderEmail) :=
  (claim5_commit_gate optsCustom { installOk := true, commitOk := true } fsMinimal
    (stOf (run optsCustom { installOk := true, commitOk := true } fsMinimal)) rfl).1

/-! ### Claim C2: ordering of feature pruning and README substitution -/

def Event.isPrune : Event → Bool
  | .domTsconfig | .domIndexHash | .domDelete
  | .nodeTsconfig | .nodeIndexAsync | .nodeIndexHash | .nodeDelete => true
  | _ => false

def Event.isReadmeSub : Event → Bool
  | .readmeName | .readmeDesc => true
  | _ => false

/-- The ordering the claim asserts: in the trace, every pruning effect
precedes every README placeholder substitution. -/
def PruneBeforeReadme (t : List Event) : Prop :=
  ∀ i < t.length, ∀ j < t.length,
    (t.getD i Event.writePkg).isPrune = true →
    (t.getD j Event.writePkg).isReadmeSub = true → i < j

/-- A template-shaped starting filesystem with both feature modules and the
pruning targets present. -/
def fsTemplate : FS :=
  { files :=
      [ (gitignorePath, "diff\nbuild\n")
      , (readmeStarterPath, "# [package-name]\n[description]\n")
      , (tsconfigPath, "A" ++ libDom ++ ", " ++ typesNode ++ "B")
      , (indexPath, asyncLn ++ hashLn)
      , (hashTsPath, "hash source")
      , (hashSpecPath, "hash spec")
      , (asyncTsPath, "async source")
      , (asyncSpecPath, "async spec") ]
  , pkgIn := some pkgBase
  , pkgOut := none }

/-- A configuration that disables both features. -/
def optsPrune : Opts :=
  { optsCustom with domDefinitions := false, nodeDefinitions := false }

/-- C2 counterexample: in the concrete run below, the README rename and
placeholder substitutions (source lines 163-178) execute before the pruning
blocks (lines 180-223), so the pruning effects do not complete before the
placeholder substitution - the claimed ordering fails. -/
instance decidablePruneBeforeReadme (t : List Event) : Decidable (PruneBeforeReadme t) := by
  unfold PruneBeforeReadme
  infer_instance

theorem claim2_counterexample :
    ¬ PruneBeforeReadme
        (traceOf (run optsPrune { installOk := true, commitOk := true } fsTemplate)) := by
  decide

theorem all_ite_list (P : Event → Prop) {c : Prop} [Decidable c] {l1 l2 : List Event}
    (h1 : ∀ e ∈ l1, P e) (h2 : ∀ e ∈ l2, P e) : ∀ e ∈ (if c then l1 else l2), P e := by
  split <;> assumption

/-- C2 amended: in every completed run, Finalization's README placeholder
substitution executes before both feature toggles' pruning effects (not
after them); since the README has no toggle-dependent content the order is
immaterial, but the code order is substitution first, pruning second. -/
theorem claim2_amended (o : Opts) (ext : Collab) (fs : FS) (s : St)
    (h : run o ext fs = Outcome.ok s) :
    ∀ i < s.trace.length, ∀ j < s.trace.length,
      (s.trace.getD i Event.writePkg).isReadmeSub = true →
      (s.trace.getD j Event.writePkg).isPrune = true → i < j := by
  obtain ⟨s8, h8, hc⟩ := andThen_ok _ _ _ h
  obtain ⟨s7, h7, hi⟩ := andThen_ok _ _ _ h8
  obtain ⟨s6, h6, hn⟩ := andThen_ok _ _ _ h7
  obtain ⟨s5, h5, hd⟩ := andThen_ok _ _ _ h6
  obtain ⟨s4, h4, hr⟩ := andThen_ok _ _ _ h5
  obtain ⟨s3, h3, hdel⟩ := andThen_ok _ _ _ h4
  obtain ⟨s2, h2, hg⟩ := andThen_ok _ _ _ h3
  obtain ⟨s1, h1, hp⟩ := andThen_ok _ _ _ h2
  have hs1 : s1 = { fs := fs, trace := [] } := (Outcome.ok.inj h1).symm
  have ht2 := (stagePkg_ok _ _ _ hp).2
  have ht3 := (stageGitignore_ok _ _ _ hg).2
  have ht4 := (stageDelete_ok _ _ _ hdel).2
  have ht5 := (stageReadme_ok _ _ _ hr).2
  have ht6 := (stageDom_ok _ _ _ hd).1
  have ht7 := (stageNode_ok _ _ _ hn).1
  have ht8 := (stageInstall_ok _ _ _ _ hi).2
  have hts := (stageCommit_ok _ _ _ _ hc).2
  -- the trace splits at the end of the README stage
  have hsplit : s.trace = s5.trace ++
      ((if o.domDefinitions then []
        else [Event.domTsconfig, Event.domIndexHash, Event.domDelete]) ++
       ((if o.nodeDefinitions then []
         else [Event.nodeTsconfig, Event.nodeIndexAsync, Event.nodeIndexHash,
           Event.nodeDelete]) ++
        ((if o.install then [Event.installPkg] else []) ++
         (if gitIsConfigured o.fullName o.email then [Event.commitRepo] else [])))) := by
    rw [hts, ht8, ht7, ht6]
    simp [List.append_assoc]
  have hAprune : ∀ e ∈ s5.trace, e.isPrune = false := by
    rw [ht5, ht4, ht3, ht2, hs1]
    simp only [List.nil_append]
    intro e he
    simp only [List.mem_append] at he
    rcases he with (((hx | hx) | hx) | hx)
    · exact (by decide : ∀ e ∈ [Event.writePkg], Event.isPrune e = false) e hx
    · exact all_ite_list (fun e => Event.isPrune e = false) (by decide) (by decide) e hx
    · exact all_ite_list (fun e => Event.isPrune e = false) (by decide) (by decide) e hx
    · exact (by decide :
        ∀ e ∈ [Event.readmeRename, Event.readmeName, Event.readmeDesc],
          Event.isPrune e = false) e hx
  have hBreadme : ∀ e ∈
      ((if o.domDefinitions then []
        else [Event.domTsconfig, Event.domIndexHash, Event.domDelete]) ++
       ((if o.nodeDefinitions then []
         else [Event.nodeTsconfig, Event.nodeIndexAsync, Event.nodeIndexHash,
           Event.nodeDelete]) ++
        ((if o.install then [Event.installPkg] else []) ++
         (if gitIsConfigured o.fullName o.email then [Event.commitRepo] else [])))),
      e.isReadmeSub = false := by
    intro e he
    simp only [List.mem_append] at he
    rcases he with hx | hx | hx | hx
    · exact all_ite_list (fun e => Event.isReadmeSub e = false) (by decide) (by decide) e hx
    · exact all_ite_list (fun e => Event.isReadmeSub e = false) (by decide) (by decide) e hx
    · exact all_ite_list (fun e => Event.isReadmeSub e = false) (by decide) (by decide) e hx
    · exact all_ite_list (fun e => Event.isReadmeSub e = false) (by decide) (by decide) e hx
  intro i hi j hj hri hpj
  rw [hsplit] at hi hj hri hpj
  have hjA : ¬ j < s5.trace.length := by
    intro hjlt
    rw [List.getD_append _ _ _ _ hjlt] at hpj
    have hmem : s5.trace.getD j Event.writePkg ∈ s5.trace := by
      rw [List.getD_eq_getElem _ _ hjlt]
      exact List.getElem_mem _
    rw [hAprune _ hmem] at hpj
    cases hpj
  have hiA : i < s5.trace.length := by
    by_contra hiA'
    have hile : s5.trace.length ≤ i := Nat.le_of_not_lt hiA'
    rw [List.getD_append_right _ _ _ _ hile] at hri
    have hlt : i - s5.trace.length < ((if o.domDefinitions then []
        else [Event.domTsconfig, Event.domIndexHash, Event.domDelete]) ++
       ((if o.nodeDefinitions then []
         else [Event.nodeTsconfig, Event.nodeIndexAsync, Event.nodeIndexHash,
           Event.nodeDelete]) ++
        ((if o.install then [Event.installPkg] else []) ++
         (if gitIsConfigured o.fullName o.email then [Event.commitRepo] else [])))).length := by
      simp only [List.length_append] at hi ⊢
      omega
    rw [List.getD_eq_getElem _ _ hlt] at hri
    rw [hBreadme _ (List.getElem_mem hlt)] at hri
    cases hri
  exact Nat.lt_of_lt_of_le hiA (Nat.le_of_not_lt hjA)

theorem claim2_amended_witness :
    ((stOf (run optsPrune { installOk := true, commitOk := true }
        fsTemplate)).trace.getD 4 Event.writePkg).isReadmeSub = true ∧
    ((stOf (run optsPrune { installOk := true, commitOk := true }
        fsTemplate)).trace.getD 6 Event.writePkg).isPrune = true ∧
    (4 : Nat) < 6 :=
  ⟨by decide, by decide,
    claim2_amended optsPrune { installOk := true, commitOk := true } fsTemplate
      (stOf (run optsPrune { installOk := true, commitOk := true } fsTemplate)) rfl
      4 (by decide) 6 (by decide) (by decide) (by decide)⟩

/-! ### Writing back unchanged content and deleting absent files are no-ops -/

theorem jsSet_self_of_lookup {α : Type} (o : List (String × α)) (k : String) (v : α)
    (h : jsLookup o k = some v) : jsSet o k v = o := by
  induction o with
  | nil => simp [jsLookup] at h
  | cons p rest ih =>
    by_cases hp : (p.1 == k) = true
    · have hpk : p.1 = k := by simpa [beq_iff_eq] using hp
      have hv : p.2 = v := by
        rw [jsLookup_cons, if_pos hp] at h
        exact Option.some.inj h
      have hpair : (k, v) = p := by
        cases p
        simp_all
      simp [jsSet, hp, hpair]
    · rw [jsLookup_cons, if_neg hp] at h
      simp [jsSet, hp, ih h]

theorem fsWrite_self_of_read (fs : FS) (p c : String) (h : fsRead fs p = some c) :
    fsWrite fs p c = fs := by
  cases fs with
  | mk files pkgIn pkgOut =>
    simp only [fsWrite, FS.mk.injEq, and_true, true_and]
    exact jsSet_self_of_lookup _ _ _ h

theorem fsDel_absent (fs : FS) (p : String) (h : fsRead fs p = none) : fsDel fs p = fs := by
  cases fs with
  | mk files pkgIn pkgOut =>
    simp only [fsDel, FS.mk.injEq, and_true, true_and]
    refine List.filter_eq_self.mpr ?_
    intro r hr
    simp only [Bool.not_eq_true', beq_eq_false_iff_ne, ne_eq]
    intro he
    have : files.find? (fun q => q.1 == p) = none := by
      have := h
      simp only [fsRead, jsLookup, Option.map_eq_none'] at this
      exact this
    have := List.find?_eq_none.mp this r hr
    simp [he] at this

/-! ### Claim C4: idempotence of the platform-feature pruning block -/

theorem occursAt_unique_of_bounded (pat s : List Char) (k : Nat) (hp : pat ≠ [])
    (h : ∀ i < s.length, occursAtB pat s i = true → i = k) :
    ∀ i, occursAtB pat s i = true → i = k := by
  intro i hi
  by_cases hlt : i < s.length
  · exact h i hlt hi
  · rw [occursAtB_of_ge pat s i hp (Nat.le_of_not_lt hlt)] at hi
    cases hi

/-- What the `!nodeDefinitions` block computes when its two text files are
present and each replacement behaves cleanly (`ReplSpec`). -/
theorem pruneNodeFS_spec (fs : FS) (tc ix : String) (t1 c1 c2 : List Char)
    (htc : fsRead fs tsconfigPath = some tc)
    (hix : fsRead fs indexPath = some ix)
    (hRts : ReplSpec tc.data typesNode.data typesEmpty.data t1)
    (hRa : ReplSpec ix.data asyncLn.data [] c1)
    (hRh : ReplSpec c1 hashLn.data [] c2) :
    pruneNodeFS fs = .ok
      (fsDel (fsDel (fsDel (fsDel
        (fsWrite (fsWrite (fsWrite fs tsconfigPath (String.mk t1)) indexPath
          (String.mk c1)) indexPath (String.mk c2))
        hashTsPath) hashSpecPath) asyncTsPath) asyncSpecPath) := by
  have hne : indexPath ≠ tsconfigPath := by decide
  have e1 : replaceFirst tc typesNode typesEmpty = String.mk t1 :=
    congrArg String.mk (hRts.eval (by decide))
  have e2 : replaceFirst ix asyncLn "" = String.mk c1 :=
    congrArg String.mk (hRa.eval (by decide))
  have e3 : replaceFirst (String.mk c1) hashLn "" = String.mk c2 :=
    congrArg String.mk (hRh.eval (by decide))
  simp [pruneNodeFS, replaceInFileFS, htc, e1, fsRead_fsWrite_ne _ _ _ _ hne, hix, e2,
    fsRead_fsWrite_self, e3, bind, Except.bind, Functor.map, Except.map, pure, Except.pure]

/-- C4 amended: on every project state whose `tsconfig.json` and
`src/index.ts` exist and whose contents give each pruning target a clean
single-or-absent occurrence that rewriting does not re-create (as in any
template-derived state), the `!nodeDefinitions` block neither errors on
either application nor changes the state on the second one: applying it
twice equals applying it once. -/
theorem claim4_amended (fs : FS) (tc ix : String) (t1 c1 c2 : List Char)
    (htc : fsRead fs tsconfigPath = some tc)
    (hix : fsRead fs indexPath = some ix)
    (hRts : ReplSpec tc.data typesNode.data typesEmpty.data t1)
    (hRa : ReplSpec ix.data asyncLn.data [] c1)
    (hRh : ReplSpec c1 hashLn.data [] c2)
    (hNa : NoOcc asyncLn.data c2) :
    ∃ fs1, pruneNodeFS fs = Except.ok fs1 ∧ pruneNodeFS fs1 = Except.ok fs1 := by
  refine ⟨_, pruneNodeFS_spec fs tc ix t1 c1 c2 htc hix hRts hRa hRh, ?_⟩
  set fsC := fsWrite (fsWrite (fsWrite fs tsconfigPath (String.mk t1)) indexPath
    (String.mk c1)) indexPath (String.mk c2) with hfsC
  set fs1 := fsDel (fsDel (fsDel (fsDel fsC hashTsPath) hashSpecPath) asyncTsPath)
    asyncSpecPath with hfs1
  have r1 : fsRead fs1 tsconfigPath = some (String.mk t1) := by
    rw [hfs1, fsRead_fsDel_ne _ _ _ (by decide), fsRead_fsDel_ne _ _ _ (by decide),
      fsRead_fsDel_ne _ _ _ (by decide), fsRead_fsDel_ne _ _ _ (by decide), hfsC,
      fsRead_fsWrite_ne _ _ _ _ (by decide), fsRead_fsWrite_ne _ _ _ _ (by decide),
      fsRead_fsWrite_self]
  have r2 : fsRead fs1 indexPath = some (String.mk c2) := by
    rw [hfs1, fsRead_fsDel_ne _ _ _ (by decide), fsRead_fsDel_ne _ _ _ (by decide),
      fsRead_fsDel_ne _ _ _ (by decide), fsRead_fsDel_ne _ _ _ (by decide), hfsC,
      fsRead_fsWrite_self]
  have rh1 : fsRead fs1 hashTsPath = none := by
    rw [hfs1, fsRead_fsDel_ne _ _ _ (by decide), fsRead_fsDel_ne _ _ _ (by decide),
      fsRead_fsDel_ne _ _ _ (by decide), fsRead_fsDel_self]
  have rh2 : fsRead fs1 hashSpecPath = none := by
    rw [hfs1, fsRead_fsDel_ne _ _ _ (by decide), fsRead_fsDel_ne _ _ _ (by decide),
      fsRead_fsDel_self]
  have ra1 : fsRead fs1 asyncTsPath = none := by
    rw [hfs1, fsRead_fsDel_ne _ _ _ (by decide), fsRead_fsDel_self]
  have ra2 : fsRead fs1 asyncSpecPath = none := by
    rw [hfs1, fsRead_fsDel_self]
  have e1 : replaceFirst (String.mk t1) typesNode typesEmpty = String.mk t1 :=
    congrArg String.mk (repFirst_no_occ _ _ _ hRts.noOccAfter)
  have e2 : replaceFirst (String.mk c2) asyncLn "" = String.mk c2 :=
    congrArg String.mk (repFirst_no_occ _ _ _ hNa)
  have e3 : replaceFirst (String.mk c2) hashLn "" = String.mk c2 :=
    congrArg String.mk (repFirst_no_occ _ _ _ hRh.noOccAfter)
  have w1 : fsWrite fs1 tsconfigPath (String.mk t1) = fs1 := fsWrite_self_of_read _ _ _ r1
  have w2 : fsWrite fs1 indexPath (String.mk c2) = fs1 := fsWrite_self_of_read _ _ _ r2
  have d1 : fsDel fs1 hashTsPath = fs1 := fsDel_absent _ _ rh1
  have d2 : fsDel fs1 hashSpecPath = fs1 := fsDel_absent _ _ rh2
  have d3 : fsDel fs1 asyncTsPath = fs1 := fsDel_absent _ _ ra1
  have d4 : fsDel fs1 asyncSpecPath = fs1 := fsDel_absent _ _ ra2
  simp [pruneNodeFS, replaceInFileFS, r1, e1, w1, r2, e2, w2, e3, d1, d2, d3, d4, bind,
    Except.bind, Functor.map, Except.map, pure, Except.pure]

/-- A tsconfig whose types fragment occurs twice. -/
def fsDoubled : FS :=
  { files := [(tsconfigPath, typesNode ++ typesNode), (indexPath, "")]
  , pkgIn := some pkgBase
  , pkgOut := none }

/-- The state after one application of the pruning block to `fsDoubled`. -/
def fsDoubledOnce : FS :=
  match pruneNodeFS fsDoubled with
  | .ok fs => fs
  | .error _ => fsDoubled

def exFS : Except Unit FS → Option FS
  | .ok fs => some fs
  | .error _ => none

/-- C4 counterexample: the claim quantifies over every project state, but
on a state whose tsconfig contains the types fragment twice, the second
application of the `!nodeDefinitions` block rewrites the remaining
occurrence, so applying it twice does not yield the state of applying it
once. -/
theorem claim4_counterexample :
    ¬ ∀ fs fs1, pruneNodeFS fs = Except.ok fs1 → pruneNodeFS fs1 = Except.ok fs1 := by
  intro h
  have h1 : pruneNodeFS fsDoubled = Except.ok fsDoubledOnce := rfl
  have h3 := congrArg exFS (h fsDoubled fsDoubledOnce h1)
  exact absurd h3 (by decide)

theorem claim4_amended_witness :
    ∃ fs1, pruneNodeFS fsTemplate = Except.ok fs1 ∧ pruneNodeFS fs1 = Except.ok fs1 :=
  claim4_amended fsTemplate ("A" ++ libDom ++ ", " ++ typesNode ++ "B")
    (asyncLn ++ hashLn)
    (("A" ++ libDom ++ ", " ++ typesEmpty ++ "B").data) hashLn.data []
    (by decide) (by decide)
    (Or.inr ⟨("A" ++ libDom ++ ", ").data, "B".data, by decide,
      occursAt_unique_of_bounded _ _ _ (by decide) (by decide), by decide,
      noOcc_of_bounded _ _ (by decide) (by decide)⟩)
    (Or.inr ⟨[], hashLn.data, by decide,
      occursAt_unique_of_bounded _ _ _ (by decide) (by decide), by decide,
      noOcc_of_bounded _ _ (by decide) (by decide)⟩)
    (Or.inr ⟨[], [], by decide,
      occursAt_unique_of_bounded _ _ _ (by decide) (by decide), by decide,
      noOcc_of_bounded _ _ (by decide) (by decide)⟩)
    (noOcc_of_bounded _ _ (by decide) (by decide))

/-! ### Stage effect lemmas for the pruning claims -/

theorem pkgFS_spec (o : Opts) (fs : FS) (p : Pkg) (h : fs.pkgIn = some p) :
    pkgFS o fs = .ok { fs with pkgOut := some (newPkg o p) } := by
  simp [pkgFS, h]

theorem fsRead_setPkgOut (fs : FS) (np : Option NewPkg) (q : String) :
    fsRead { fs with pkgOut := np } q = fsRead fs q := rfl

theorem gitignoreFS_spec (o : Opts) (fs : FS) (g : String)
    (h : fsRead fs gitignorePath = some g) :
    ∃ fs', gitignoreFS o fs = .ok fs' ∧
      (∀ q, q ≠ gitignorePath → fsRead fs' q = fsRead fs q) ∧
      fs'.pkgIn = fs.pkgIn ∧ fs'.pkgOut = fs.pkgOut := by
  cases hr : o.runner with
  | npm =>
    refine ⟨fsWrite fs gitignorePath (replaceFirst g "diff\n" ""), ?_, ?_, rfl, rfl⟩
    · simp [gitignoreFS, replaceInFileFS, h, hr, bind, Except.bind, pure, Except.pure]
    · intro q hq
      exact fsRead_fsWrite_ne _ _ _ _ hq
  | yarn =>
    refine ⟨fsWrite (fsWrite fs gitignorePath (replaceFirst g "diff\n" ""))
      gitignorePath
      (replaceFirst (replaceFirst g "diff\n" "") "yarn.lock" "package-lock.json"),
      ?_, ?_, rfl, rfl⟩
    · simp [gitignoreFS, replaceInFileFS, h, hr, fsRead_fsWrite_self, bind, Except.bind,
        pure, Except.pure]
    · intro q hq
      rw [fsRead_fsWrite_ne _ _ _ _ hq, fsRead_fsWrite_ne _ _ _ _ hq]

theorem deleteFS_spec (o : Opts) (fs : FS) (q : String)
    (h1 : q ≠ changelogPath) (h2 : q ≠ readmePath) (h3 : q ≠ lockPath)
    (h4 : q ≠ binPath) (h5 : q ≠ cliPath) (h6 : q ≠ vscodePath) :
    fsRead (deleteFS o fs) q = fsRead fs q := by
  cases hv : o.vscode with
  | true =>
    simp only [deleteFS, hv, if_true]
    rw [fsRead_fsDel_ne _ _ _ h5, fsRead_fsDel_ne _ _ _ h4, fsRead_fsDel_ne _ _ _ h3,
      fsRead_fsDel_ne _ _ _ h2, fsRead_fsDel_ne _ _ _ h1]
  | false =>
    simp only [deleteFS, hv, Bool.false_eq_true, if_false]
    rw [fsRead_fsDel_ne _ _ _ h6, fsRead_fsDel_ne _ _ _ h5, fsRead_fsDel_ne _ _ _ h4,
      fsRead_fsDel_ne _ _ _ h3, fsRead_fsDel_ne _ _ _ h2, fsRead_fsDel_ne _ _ _ h1]

theorem deleteFS_pkg (o : Opts) (fs : FS) :
    (deleteFS o fs).pkgIn = fs.pkgIn ∧ (deleteFS o fs).pkgOut = fs.pkgOut := by
  cases hv : o.vscode <;> simp [deleteFS, hv, fsDel]

theorem readmeFS_spec (o : Opts) (fs : FS) (rm : String)
    (h : fsRead fs readmeStarterPath = some rm) :
    ∃ fs', readmeFS o fs = .ok fs' ∧
      (∀ q, q ≠ readmeStarterPath → q ≠ readmePath → fsRead fs' q = fsRead fs q) ∧
      fs'.pkgIn = fs.pkgIn ∧ fs'.pkgOut = fs.pkgOut := by
  refine ⟨fsWrite (fsWrite (fsWrite (fsDel fs readmeStarterPath) readmePath rm)
    readmePath (replaceFirst rm "[package-name]" o.projectName)) readmePath
    (replaceFirst (replaceFirst rm "[package-name]" o.projectName) "[description]"
      o.description), ?_, ?_, rfl, rfl⟩
  · simp [readmeFS, renameFS, replaceInFileFS, h, fsRead_fsWrite_self, bind, Except.bind,
      pure, Except.pure]
  · intro q hq1 hq2
    rw [fsRead_fsWrite_ne _ _ _ _ hq2, fsRead_fsWrite_ne _ _ _ _ hq2,
      fsRead_fsWrite_ne _ _ _ _ hq2, fsRead_fsDel_ne _ _ _ hq1]

/-- What the `!domDefinitions` block computes when its two text files are
present and each replacement behaves cleanly. -/
theorem pruneDomFS_spec (fs : FS) (tc ix : String) (t1 c1 : List Char)
    (htc : fsRead fs tsconfigPath = some tc)
    (hix : fsRead fs indexPath = some ix)
    (hRts : ReplSpec tc.data libDom.data libNoDom.data t1)
    (hRh : ReplSpec ix.data hashLn.data [] c1) :
    pruneDomFS fs = .ok
      (fsDel (fsDel (fsWrite (fsWrite fs tsconfigPath (String.mk t1)) indexPath
        (String.mk c1)) hashTsPath) hashSpecPath) := by
  have hne : indexPath ≠ tsconfigPath := by decide
  have e1 : replaceFirst tc libDom libNoDom = String.mk t1 :=
    congrArg String.mk (hRts.eval (by decide))
  have e2 : replaceFirst ix hashLn "" = String.mk c1 :=
    congrArg String.mk (hRh.eval (by decide))
  simp [pruneDomFS, replaceInFileFS, htc, e1, fsRead_fsWrite_ne _ _ _ _ hne, hix, e2,
    bind, Except.bind, pure, Except.pure]

theorem liftStage_eq_ok (f : FS → Except Unit FS) (evs : List Event) (s : St) (fs' : FS)
    (h : f s.fs = .ok fs') :
    liftStage f evs s = .ok { fs := fs', trace := s.trace ++ evs } := by
  simp [liftStage, h]

theorem stagePkg_eq (o : Opts) (fs0 : FS) (tr : List Event) (p : Pkg)
    (h : fs0.pkgIn = some p) :
    stagePkg o { fs := fs0, trace := tr } = .ok
      { fs := { fs0 with pkgOut := some (newPkg o p) }, trace := tr ++ [Event.writePkg] } :=
  liftStage_eq_ok _ _ _ _ (pkgFS_spec o fs0 p h)

theorem stageGitignore_eq (o : Opts) (fs0 : FS) (tr : List Event) (fs' : FS)
    (h : gitignoreFS o fs0 = .ok fs') :
    stageGitignore o { fs := fs0, trace := tr } = .ok
      { fs := fs', trace := tr ++
          (if o.runner = Runner.yarn then [Event.gitignoreDiff, Event.gitignoreYarn]
           else [Event.gitignoreDiff]) } :=
  liftStage_eq_ok _ _ _ _ h

theorem stageDelete_eq (o : Opts) (fs0 : FS) (tr : List Event) :
    stageDelete o { fs := fs0, trace := tr } = .ok
      { fs := deleteFS o fs0, trace := tr ++
          (if o.vscode then [Event.delScaffold]
           else [Event.delScaffold, Event.delVscode]) } :=
  liftStage_eq_ok _ _ _ _ rfl

theorem stageReadme_eq (o : Opts) (fs0 : FS) (tr : List Event) (fs' : FS)
    (h : readmeFS o fs0 = .ok fs') :
    stageReadme o { fs := fs0, trace := tr } = .ok
      { fs := fs', trace := tr ++
          [Event.readmeRename, Event.readmeName, Event.readmeDesc] } :=
  liftStage_eq_ok _ _ _ _ h

theorem stageDom_eq_prune (o : Opts) (fs0 : FS) (tr : List Event) (fs' : FS)
    (hdom : o.domDefinitions = false) (h : pruneDomFS fs0 = .ok fs') :
    stageDom o { fs := fs0, trace := tr } = .ok
      { fs := fs', trace := tr ++
          [Event.domTsconfig, Event.domIndexHash, Event.domDelete] } := by
  rw [stageDom, hdom]
  simp only [Bool.false_eq_true, if_false]
  exact liftStage_eq_ok _ _ _ _ h

theorem stageDom_eq_skip (o : Opts) (s : St) (hdom : o.domDefinitions = true) :
    stageDom o s = .ok s := by
  rw [stageDom, hdom]
  simp

theorem stageNode_eq_prune (o : Opts) (fs0 : FS) (tr : List Event) (fs' : FS)
    (hnode : o.nodeDefinitions = false) (h : pruneNodeFS fs0 = .ok fs') :
    stageNode o { fs := fs0, trace := tr } = .ok
      { fs := fs', trace := tr ++
          [Event.nodeTsconfig, Event.nodeIndexAsync, Event.nodeIndexHash,
            Event.nodeDelete] } := by
  rw [stageNode, hnode]
  simp only [Bool.false_eq_true, if_false]
  exact liftStage_eq_ok _ _ _ _ h

theorem stageNode_eq_skip (o : Opts) (s : St) (hnode : o.nodeDefinitions = true) :
    stageNode o s = .ok s := by
  rw [stageNode, hnode]
  simp

theorem stageInstall_eq (o : Opts) (ext : Collab) (fs0 : FS) (tr : List Event)
    (h : ext.installOk = true) :
    stageInstall o ext { fs := fs0, trace := tr } = .ok
      { fs := fs0, trace := tr ++ (if o.install then [Event.installPkg] else []) } := by
  cases hi : o.install <;> simp [stageInstall, hi, h]

theorem stageCommit_eq (o : Opts) (ext : Collab) (fs0 : FS) (tr : List Event)
    (h : ext.commitOk = true) :
    stageCommit o ext { fs := fs0, trace := tr } = .ok
      { fs := fs0, trace := tr ++
          (if gitIsConfigured o.fullName o.email then [Event.commitRepo] else []) } := by
  cases hg : gitIsConfigured o.fullName o.email <;> simp [stageCommit, hg, h]

/-! ### Claim C3: disabling the DOM feature prunes it everywhere -/

/-- C3: for every starting filesystem in which the DOM feature is present
in template shape (the export line and the lib fragment occur exactly once,
no other reference to the hash module survives the removals, and the
feature's modules exist), running the pipeline with `domDefinitions = false`
succeeds and leaves a tree with `src/lib/hash.ts` and
`src/lib/hash.spec.ts` absent, no hash export line in `src/index.ts`, and a
tsconfig whose lib fragment is the reduced form and no longer the dom
form - whatever the other toggles. -/
theorem claim3_dom_pruning (o : Opts) (ext : Collab) (fs : FS) (p : Pkg)
    (g rm tc ix : String) (T1 T2 P1 P2 t2 c2 : List Char)
    (hdom : o.domDefinitions = false)
    (hpkg : fs.pkgIn = some p)
    (hgi : fsRead fs gitignorePath = some g)
    (hrm : fsRead fs readmeStarterPath = some rm)
    (htc : fsRead fs tsconfigPath = some tc)
    (hixr : fsRead fs indexPath = some ix)
    (hhash : fsRead fs hashTsPath ≠ none)
    (hhspec : fsRead fs hashSpecPath ≠ none)
    (htcd : tc.data = T1 ++ libDom.data ++ T2)
    (htco : ∀ i, occursAtB libDom.data tc.data i = true → i = T1.length)
    (htc1 : NoOcc libDom.data (T1 ++ libNoDom.data ++ T2))
    (hts2 : ReplSpec (T1 ++ libNoDom.data ++ T2) typesNode.data typesEmpty.data t2)
    (hts2no : NoOcc libDom.data t2)
    (hts2c : ∃ U V, t2 = U ++ libNoDom.data ++ V)
    (hixd : ix.data = P1 ++ hashLn.data ++ P2)
    (hixo : ∀ i, occursAtB hashLn.data ix.data i = true → i = P1.length)
    (hix1 : NoOcc hashSans.data (P1 ++ P2))
    (hRa : ReplSpec (P1 ++ P2) asyncLn.data [] c2)
    (hc2 : NoOcc hashSans.data c2)
    (hio : ext.installOk = true)
    (hco : ext.commitOk = true) :
    ∃ s, run o ext fs = Outcome.ok s ∧
      fsRead s.fs hashTsPath = none ∧
      fsRead s.fs hashSpecPath = none ∧
      (∃ ic, fsRead s.fs indexPath = some ic ∧ NoOcc hashSans.data ic.data) ∧
      (∃ tcc, fsRead s.fs tsconfigPath = some tcc ∧
        (∃ U V, tcc.data = U ++ libNoDom.data ++ V) ∧
        NoOcc libDom.data tcc.data) := by
  have hLn : hashLn.data = hashSans.data ++ "\n".data := by decide
  have hRts : ReplSpec tc.data libDom.data libNoDom.data (T1 ++ libNoDom.data ++ T2) :=
    Or.inr ⟨T1, T2, htcd, htco, rfl, htc1⟩
  have hnoHashLn1 : NoOcc hashLn.data (P1 ++ P2) := by
    rw [hLn]
    exact noOcc_mono _ _ _ hix1
  have hRh : ReplSpec ix.data hashLn.data [] (P1 ++ P2) :=
    Or.inr ⟨P1, P2, hixd, hixo, by simp, hnoHashLn1⟩
  obtain ⟨fsA, hfsA⟩ : ∃ fsA, ({ fs with pkgOut := some (newPkg o p) } : FS) = fsA :=
    ⟨_, rfl⟩
  have hAgi : fsRead fsA gitignorePath = some g := by rw [← hfsA]; exact hgi
  obtain ⟨fsB, hB, hBr, _, _⟩ := gitignoreFS_spec o fsA g hAgi
  have hBrm : fsRead fsB readmeStarterPath = some rm := by
    rw [hBr _ (by decide), ← hfsA]
    exact hrm
  have hBtc : fsRead fsB tsconfigPath = some tc := by
    rw [hBr _ (by decide), ← hfsA]
    exact htc
  have hBix : fsRead fsB indexPath = some ix := by
    rw [hBr _ (by decide), ← hfsA]
    exact hixr
  obtain ⟨fsC, hfsC⟩ : ∃ fsC, deleteFS o fsB = fsC := ⟨_, rfl⟩
  have hCrm : fsRead fsC readmeStarterPath = some rm := by
    rw [← hfsC, deleteFS_spec o fsB _ (by decide) (by decide) (by decide) (by decide)
      (by decide) (by decide)]
    exact hBrm
  have hCtc : fsRead fsC tsconfigPath = some tc := by
    rw [← hfsC, deleteFS_spec o fsB _ (by decide) (by decide) (by decide) (by decide)
      (by decide) (by decide)]
    exact hBtc
  have hCix : fsRead fsC indexPath = some ix := by
    rw [← hfsC, deleteFS_spec o fsB _ (by decide) (by decide) (by decide) (by decide)
      (by decide) (by decide)]
    exact hBix
  obtain ⟨fsD, hD, hDr, _, _⟩ := readmeFS_spec o fsC rm hCrm
  have hDtc : fsRead fsD tsconfigPath = some tc := by
    rw [hDr _ (by decide) (by decide)]
    exact hCtc
  have hDix : fsRead fsD indexPath = some ix := by
    rw [hDr _ (by decide) (by decide)]
    exact hCix
  obtain ⟨fsE, hfsE⟩ : ∃ fsE,
      fsDel (fsDel (fsWrite (fsWrite fsD tsconfigPath
        (String.mk (T1 ++ libNoDom.data ++ T2))) indexPath (String.mk (P1 ++ P2)))
        hashTsPath) hashSpecPath = fsE := ⟨_, rfl⟩
  have hE : pruneDomFS fsD = .ok fsE := by
    rw [← hfsE]
    exact pruneDomFS_spec fsD tc ix _ _ hDtc hDix hRts hRh
  have hEtc : fsRead fsE tsconfigPath = some (String.mk (T1 ++ libNoDom.data ++ T2)) := by
    rw [← hfsE, fsRead_fsDel_ne _ _ _ (by decide), fsRead_fsDel_ne _ _ _ (by decide),
      fsRead_fsWrite_ne _ _ _ _ (by decide), fsRead_fsWrite_self]
  have hEix : fsRead fsE indexPath = some (String.mk (P1 ++ P2)) := by
    rw [← hfsE, fsRead_fsDel_ne _ _ _ (by decide), fsRead_fsDel_ne _ _ _ (by decide),
      fsRead_fsWrite_self]
  have hEh1 : fsRead fsE hashTsPath = none := by
    rw [← hfsE, fsRead_fsDel_ne _ _ _ (by decide), fsRead_fsDel_self]
  have hEh2 : fsRead fsE hashSpecPath = none := by
    rw [← hfsE, fsRead_fsDel_self]
  cases hnode : o.nodeDefinitions with
  | true =>
    have hrun : run o ext fs = Outcome.ok { fs := fsE, trace :=
        ((((((([] ++ [Event.writePkg]) ++
          (if o.runner = Runner.yarn then [Event.gitignoreDiff, Event.gitignoreYarn]
           else [Event.gitignoreDiff])) ++
          (if o.vscode then [Event.delScaffold]
           else [Event.delScaffold, Event.delVscode])) ++
          [Event.readmeRename, Event.readmeName, Event.readmeDesc]) ++
          [Event.domTsconfig, Event.domIndexHash, Event.domDelete]) ++
          (if o.install then [Event.installPkg] else [])) ++
          (if gitIsConfigured o.fullName o.email then [Event.commitRepo] else [])) } := by
      unfold run
      simp only [Outcome.andThen]
      rw [stagePkg_eq o fs [] p hpkg, hfsA]
      simp only [Outcome.andThen]
      rw [stageGitignore_eq o fsA _ fsB hB]
      simp only [Outcome.andThen]
      rw [stageDelete_eq o fsB _, hfsC]
      simp only [Outcome.andThen]
      rw [stageReadme_eq o fsC _ fsD hD]
      simp only [Outcome.andThen]
      rw [stageDom_eq_prune o fsD _ fsE hdom hE]
      simp only [Outcome.andThen]
      rw [stageNode_eq_skip o _ hnode]
      simp only [Outcome.andThen]
      rw [stageInstall_eq o ext fsE _ hio]
      simp only [Outcome.andThen]
      rw [stageCommit_eq o ext fsE _ hco]
    exact ⟨_, hrun, hEh1, hEh2, ⟨_, hEix, hix1⟩, ⟨_, hEtc, ⟨T1, T2, rfl⟩, htc1⟩⟩
  | false =>
    have hRh2 : ReplSpec c2 hashLn.data [] c2 := ReplSpec.of_noOcc (by
      rw [hLn]
      exact noOcc_mono _ _ _ hc2)
    obtain ⟨fsF, hfsF⟩ : ∃ fsF,
        fsDel (fsDel (fsDel (fsDel (fsWrite (fsWrite (fsWrite fsE tsconfigPath
          (String.mk t2)) indexPath (String.mk c2)) indexPath (String.mk c2))
          hashTsPath) hashSpecPath) asyncTsPath) asyncSpecPath = fsF := ⟨_, rfl⟩
    have hF : pruneNodeFS fsE = .ok fsF := by
      rw [← hfsF]
      exact pruneNodeFS_spec fsE _ _ t2 c2 c2 hEtc hEix hts2 hRa hRh2
    have hFtc : fsRead fsF tsconfigPath = some (String.mk t2) := by
      rw [← hfsF, fsRead_fsDel_ne _ _ _ (by decide), fsRead_fsDel_ne _ _ _ (by decide),
        fsRead_fsDel_ne _ _ _ (by decide), fsRead_fsDel_ne _ _ _ (by decide),
        fsRead_fsWrite_ne _ _ _ _ (by decide), fsRead_fsWrite_ne _ _ _ _ (by decide),
        fsRead_fsWrite_self]
    have hFix : fsRead fsF indexPath = some (String.mk c2) := by
      rw [← hfsF, fsRead_fsDel_ne _ _ _ (by decide), fsRead_fsDel_ne _ _ _ (by decide),
        fsRead_fsDel_ne _ _ _ (by decide), fsRead_fsDel_ne _ _ _ (by decide),
        fsRead_fsWrite_self]
    have hFh1 : fsRead fsF hashTsPath = none := by
      rw [← hfsF, fsRead_fsDel_ne _ _ _ (by decide), fsRead_fsDel_ne _ _ _ (by decide),
        fsRead_fsDel_ne _ _ _ (by decide), fsRead_fsDel_self]
    have hFh2 : fsRead fsF hashSpecPath = none := by
      rw [← hfsF, fsRead_fsDel_ne _ _ _ (by decide), fsRead_fsDel_ne _ _ _ (by decide),
        fsRead_fsDel_self]
    have hrun : run o ext fs = Outcome.ok { fs := fsF, trace :=
        (((((((([] ++ [Event.writePkg]) ++
          (if o.runner = Runner.yarn then [Event.gitignoreDiff, Event.gitignoreYarn]
           else [Event.gitignoreDiff])) ++
          (if o.vscode then [Event.delScaffold]
           else [Event.delScaffold, Event.delVscode])) ++
          [Event.readmeRename, Event.readmeName, Event.readmeDesc]) ++
          [Event.domTsconfig, Event.domIndexHash, Event.domDelete]) ++
          [Event.nodeTsconfig, Event.nodeIndexAsync, Event.nodeIndexHash,
            Event.nodeDelete]) ++
          (if o.install then [Event.installPkg] else [])) ++
          (if gitIsConfigured o.fullName o.email then [Event.commitRepo] else [])) } := by
      unfold run
      simp only [Outcome.andThen]
      rw [stagePkg_eq o fs [] p hpkg, hfsA]
      simp only [Outcome.andThen]
      rw [stageGitignore_eq o fsA _ fsB hB]
      simp only [Outcome.andThen]
      rw [stageDelete_eq o fsB _, hfsC]
      simp only [Outcome.andThen]
      rw [stageReadme_eq o fsC _ fsD hD]
      simp only [Outcome.andThen]
      rw [stageDom_eq_prune o fsD _ fsE hdom hE]
      simp only [Outcome.andThen]
      rw [stageNode_eq_prune o fsE _ fsF hnode hF]
      simp only [Outcome.andThen]
      rw [stageInstall_eq o ext fsF _ hio]
      simp only [Outcome.andThen]
      rw [stageCommit_eq o ext fsF _ hco]
    exact ⟨_, hrun, hFh1, hFh2, ⟨_, hFix, hc2⟩, ⟨_, hFtc, hts2c, hts2no⟩⟩

theorem claim3_witness :
    ∃ s, run optsPrune { installOk := true, commitOk := true } fsTemplate
        = Outcome.ok s ∧
      fsRead s.fs hashTsPath = none ∧
      fsRead s.fs hashSpecPath = none ∧
      (∃ ic, fsRead s.fs indexPath = some ic ∧ NoOcc hashSans.data ic.data) ∧
      (∃ tcc, fsRead s.fs tsconfigPath = some tcc ∧
        (∃ U V, tcc.data = U ++ libNoDom.data ++ V) ∧
        NoOcc libDom.data tcc.data) :=
  claim3_dom_pruning optsPrune { installOk := true, commitOk := true } fsTemplate pkgBase
    "diff\nbuild\n" "# [package-name]\n[description]\n"
    ("A" ++ libDom ++ ", " ++ typesNode ++ "B") (asyncLn ++ hashLn)
    ("A".data) ((", " ++ typesNode ++ "B").data)
    asyncLn.data []
    (("A" ++ libNoDom ++ ", " ++ typesEmpty ++ "B").data) []
    rfl rfl rfl rfl rfl rfl (by decide) (by decide)
    (by decide)
    (occursAt_unique_of_bounded _ _ _ (by decide) (by decide))
    (noOcc_of_bounded _ _ (by decide) (by decide))
    (Or.inr ⟨("A" ++ libNoDom ++ ", ").data, "B".data, by decide,
      occursAt_unique_of_bounded _ _ _ (by decide) (by decide), by decide,
      noOcc_of_bounded _ _ (by decide) (by decide)⟩)
    (noOcc_of_bounded _ _ (by decide) (by decide))
    ⟨"A".data, (", " ++ typesEmpty ++ "B").data, by decide⟩
    (by decide)
    (occursAt_unique_of_bounded _ _ _ (by decide) (by decide))
    (noOcc_of_bounded _ _ (by decide) (by decide))
    (Or.inr ⟨[], [], by decide,
      occursAt_unique_of_bounded _ _ _ (by decide) (by decide), by decide,
      noOcc_of_bounded _ _ (by decide) (by decide)⟩)
    (noOcc_of_bounded _ _ (by decide) (by decide))
    rfl rfl

/-! ### Claim C10: disabling the platform feature also removes the DOM feature -/

/-- C10: with `nodeDefinitions = false` and `domDefinitions = true`, the
platform-pruning block nevertheless deletes `src/lib/hash.ts` and
`src/lib/hash.spec.ts` and removes the hash export line from
`src/index.ts` - an enabled DOM feature does not survive disabling the
platform feature (for every template-shaped starting state in which the
feature is present). -/
theorem claim10_node_prunes_dom (o : Opts) (ext : Collab) (fs : FS) (p : Pkg)
    (g rm tc ix : String) (t1 c1 c2 : List Char)
    (hdom : o.domDefinitions = true)
    (hnode : o.nodeDefinitions = false)
    (hpkg : fs.pkgIn = some p)
    (hgi : fsRead fs gitignorePath = some g)
    (hrm : fsRead fs readmeStarterPath = some rm)
    (htc : fsRead fs tsconfigPath = some tc)
    (hixr : fsRead fs indexPath = some ix)
    (hhash : fsRead fs hashTsPath ≠ none)
    (hhspec : fsRead fs hashSpecPath ≠ none)
    (hpresent : ∃ u v, ix.data = u ++ hashLn.data ++ v)
    (hts : ReplSpec tc.data typesNode.data typesEmpty.data t1)
    (hRa : ReplSpec ix.data asyncLn.data [] c1)
    (hRh : ReplSpec c1 hashLn.data [] c2)
    (hfinal : NoOcc hashSans.data c2)
    (hio : ext.installOk = true)
    (hco : ext.commitOk = true) :
    ∃ s, run o ext fs = Outcome.ok s ∧
      fsRead s.fs hashTsPath = none ∧
      fsRead s.fs hashSpecPath = none ∧
      (∃ ic, fsRead s.fs indexPath = some ic ∧ NoOcc hashSans.data ic.data) := by
  obtain ⟨fsA, hfsA⟩ : ∃ fsA, ({ fs with pkgOut := some (newPkg o p) } : FS) = fsA :=
    ⟨_, rfl⟩
  have hAgi : fsRead fsA gitignorePath = some g := by rw [← hfsA]; exact hgi
  obtain ⟨fsB, hB, hBr, _, _⟩ := gitignoreFS_spec o fsA g hAgi
  have hBrm : fsRead fsB readmeStarterPath = some rm := by
    rw [hBr _ (by decide), ← hfsA]
    exact hrm
  have hBtc : fsRead fsB tsconfigPath = some tc := by
    rw [hBr _ (by decide), ← hfsA]
    exact htc
  have hBix : fsRead fsB indexPath = some ix := by
    rw [hBr _ (by decide), ← hfsA]
    exact hixr
  obtain ⟨fsC, hfsC⟩ : ∃ fsC, deleteFS o fsB = fsC := ⟨_, rfl⟩
  have hCrm : fsRead fsC readmeStarterPath = some rm := by
    rw [← hfsC, deleteFS_spec o fsB _ (by decide) (by decide) (by decide) (by decide)
      (by decide) (by decide)]
    exact hBrm
  have hCtc : fsRead fsC tsconfigPath = some tc := by
    rw [← hfsC, deleteFS_spec o fsB _ (by decide) (by decide) (by decide) (by decide)
      (by decide) (by decide)]
    exact hBtc
  have hCix : fsRead fsC indexPath = some ix := by
    rw [← hfsC, deleteFS_spec o fsB _ (by decide) (by decide) (by decide) (by decide)
      (by decide) (by decide)]
    exact hBix
  obtain ⟨fsD, hD, hDr, _, _⟩ := readmeFS_spec o fsC rm hCrm
  have hDtc : fsRead fsD tsconfigPath = some tc := by
    rw [hDr _ (by decide) (by decide)]
    exact hCtc
  have hDix : fsRead fsD indexPath = some ix := by
    rw [hDr _ (by decide) (by decide)]
    exact hCix
  obtain ⟨fsF, hfsF⟩ : ∃ fsF,
      fsDel (fsDel (fsDel (fsDel (fsWrite (fsWrite (fsWrite fsD tsconfigPath
        (String.mk t1)) indexPath (String.mk c1)) indexPath (String.mk c2))
        hashTsPath) hashSpecPath) asyncTsPath) asyncSpecPath = fsF := ⟨_, rfl⟩
  have hF : pruneNodeFS fsD = .ok fsF := by
    rw [← hfsF]
    exact pruneNodeFS_spec fsD _ _ t1 c1 c2 hDtc hDix hts hRa hRh
  have hFix : fsRead fsF indexPath = some (String.mk c2) := by
    rw [← hfsF, fsRead_fsDel_ne _ _ _ (by decide), fsRead_fsDel_ne _ _ _ (by decide),
      fsRead_fsDel_ne _ _ _ (by decide), fsRead_fsDel_ne _ _ _ (by decide),
      fsRead_fsWrite_self]
  have hFh1 : fsRead fsF hashTsPath = none := by
    rw [← hfsF, fsRead_fsDel_ne _ _ _ (by decide), fsRead_fsDel_ne _ _ _ (by decide),
      fsRead_fsDel_ne _ _ _ (by decide), fsRead_fsDel_self]
  have hFh2 : fsRead fsF hashSpecPath = none := by
    rw [← hfsF, fsRead_fsDel_ne _ _ _ (by decide), fsRead_fsDel_ne _ _ _ (by decide),
      fsRead_fsDel_self]
  have hrun : run o ext fs = Outcome.ok { fs := fsF, trace :=
      ((((((([] ++ [Event.writePkg]) ++
        (if o.runner = Runner.yarn then [Event.gitignoreDiff, Event.gitignoreYarn]
         else [Event.gitignoreDiff])) ++
        (if o.vscode then [Event.delScaffold]
         else [Event.delScaffold, Event.delVscode])) ++
        [Event.readmeRename, Event.readmeName, Event.readmeDesc]) ++
        [Event.nodeTsconfig, Event.nodeIndexAsync, Event.nodeIndexHash,
          Event.nodeDelete]) ++
        (if o.install then [Event.installPkg] else [])) ++
        (if gitIsConfigured o.fullName o.email then [Event.commitRepo] else [])) } := by
    unfold run
    simp only [Outcome.andThen]
    rw [stagePkg_eq o fs [] p hpkg, hfsA]
    simp only [Outcome.andThen]
    rw [stageGitignore_eq o fsA _ fsB hB]
    simp only [Outcome.andThen]
    rw [stageDelete_eq o fsB _, hfsC]
    simp only [Outcome.andThen]
    rw [stageReadme_eq o fsC _ fsD hD]
    simp only [Outcome.andThen]
    rw [stageDom_eq_skip o _ hdom]
    simp only [Outcome.andThen]
    rw [stageNode_eq_prune o fsD _ fsF hnode hF]
    simp only [Outcome.andThen]
    rw [stageInstall_eq o ext fsF _ hio]
    simp only [Outcome.andThen]
    rw [stageCommit_eq o ext fsF _ hco]
  exact ⟨_, hrun, hFh1, hFh2, ⟨_, hFix, hfinal⟩⟩

/-- A configuration keeping the DOM feature but disabling the platform
feature. -/
def optsNodeOff : Opts := { optsCustom with nodeDefinitions := false }

theorem claim10_witness :
    ∃ s, run optsNodeOff { installOk := true, commitOk := true } fsTemplate
        = Outcome.ok s ∧
      fsRead s.fs hashTsPath = none ∧
      fsRead s.fs hashSpecPath = none ∧
      (∃ ic, fsRead s.fs indexPath = some ic ∧ NoOcc hashSans.data ic.data) :=
  claim10_node_prunes_dom optsNodeOff { installOk := true, commitOk := true } fsTemplate
    pkgBase "diff\nbuild\n" "# [package-name]\n[description]\n"
    ("A" ++ libDom ++ ", " ++ typesNode ++ "B") (asyncLn ++ hashLn)
    (("A" ++ libDom ++ ", " ++ typesEmpty ++ "B").data) hashLn.data []
    rfl rfl rfl rfl rfl rfl rfl (by decide) (by decide)
    ⟨asyncLn.data, [], by decide⟩
    (Or.inr ⟨("A" ++ libDom ++ ", ").data, "B".data, by decide,
      occursAt_unique_of_bounded _ _ _ (by decide) (by decide), by decide,
      noOcc_of_bounded _ _ (by decide) (by decide)⟩)
    (Or.inr ⟨[], hashLn.data, by decide,
      occursAt_unique_of_bounded _ _ _ (by decide) (by decide), by decide,
      noOcc_of_bounded _ _ (by decide) (by decide)⟩)
    (Or.inr ⟨[], [], by decide,
      occursAt_unique_of_bounded _ _ _ (by decide) (by decide), by decide,
      noOcc_of_bounded _ _ (by decide) (by decide)⟩)
    (noOcc_of_bounded _ _ (by decide) (by decide))
    rfl rfl
